import Mathlib

/-!
The sample pipeline of guitar-delay (`src/main.c`).

A shallow embedding of the delay/echo pipeline of `main.c` and the properties of it
that the specification states.

Conventions of the embedding.

* `uint8_t`, `uint16_t` and `uint32_t` values are natural numbers; every store into a
  `uint16_t` object reduces modulo `65536`, as the C conversion does.  The operands of the
  arithmetic in the pipeline are promoted to (32-bit) `int` first, and for operands of the
  declared widths no `int` operation leaves the `int` range, so the arithmetic itself is
  exact; where a difference can be negative it is computed over `Int`.
* The arrays `g_data` and `g_block_address` are maps from index to stored value; their
  declared lengths are the constants `g_data_len` (16000) and `g_block_address_len` (6).
  Inside the declared bounds the maps are exact.  An access outside them is undefined
  behaviour in C, and nothing is claimed about it: `tickInBounds` and `delayInBounds` say
  that every array access of a tick, or of `GetDelayOutput`, is inside the arrays, and
  `tickChecked` and `GetDelayOutputChecked` have a value only then.  The loops index
  `g_block_address` up to `DECAY - 1`, so the declared storage admits `DECAY ≤ 6`.
* The ADC interrupt is taken between two iterations of the loop of `main` (`Event`, `exec`);
  an interrupt that preempts the body of a tick is not part of the model.
* The compile-time constants `DECAY`, `MIX`, `SAMPLE_RATE_kHz` and `DELAY_TIME_ms` are
  parameters, collected in `Config`; `reference` holds the values of the source.
* `output *= 0.6` is a binary64 multiplication followed by a truncating conversion to
  `uint16_t`; `mulDouble` computes it exactly in integer arithmetic.
* The hardware side (ADC, SSI) appears only at its boundary: the raw word the ADC delivers is
  an argument of `ADC0IntHandler`, and the words handed to `SSIDataPut` are collected in
  the field `ssi` of the state.
-/

namespace GuitarDelay

/-! ## Configuration and state -/

/-- The compile-time constants of `main.c`. -/
structure Config where
  /-- The constant `const uint16_t SAMPLE_RATE_kHz`. -/
  SAMPLE_RATE_kHz : Nat
  /-- The constant `const uint8_t DECAY`. -/
  DECAY : Nat
  /-- The constant `const uint16_t DELAY_TIME_ms`. -/
  DELAY_TIME_ms : Nat
  /-- The constant `const uint8_t MIX`. -/
  MIX : Nat

/-- The values of the constants in the source: 16 kHz, `DECAY = 3`, 25 ms, `MIX = 4`. -/
def reference : Config :=
  { SAMPLE_RATE_kHz := 16, DECAY := 3, DELAY_TIME_ms := 25, MIX := 4 }

/-- Declared length of `volatile uint16_t g_data[16000]`. -/
def g_data_len : Nat := 16000

/-- Declared length of `volatile uint16_t g_block_address[6]`. -/
def g_block_address_len : Nat := 6

/-- The globals of `main.c`, and the sequence of words handed to `SSIDataPut`. -/
structure State where
  /-- The word `g_input_buffer[0]`. -/
  g_input_buffer : Nat
  /-- The array `g_data`, as a map from index to stored sample; the C array has the slots
  below `g_data_len`. -/
  g_data : Nat → Nat
  /-- The array `g_block_address`, as a map from index to stored address; the C array has
  the slots below `g_block_address_len`. -/
  g_block_address : Nat → Nat
  /-- The flag `g_sample_complete`. -/
  g_sample_complete : Nat
  /-- The words transmitted over SSI so far, oldest first. -/
  ssi : List Nat

/-- The array store `a[i] = v`. -/
def store (a : Nat → Nat) (i v : Nat) : Nat → Nat :=
  fun j => if j = i then v else a j

/-! ## The functions of `main.c` -/

/-- `InitBlockAddress`: `g_block_address[0] = 0`, then for `n = 1 .. DECAY - 1`
`g_block_address[n] = block_space * n - 1`, the right-hand side computed in `int` and
converted to `uint16_t`. -/
def InitBlockAddress (DECAY block_space : Nat) (g_block_address : Nat → Nat) : Nat → Nat :=
  (List.range' 1 (DECAY - 1)).foldl
    (fun a n => store a n (((block_space : Int) * (n : Int) - 1) % 65536).toNat)
    (store g_block_address 0 0)

/-- The accumulation loop of `GetDelayOutput`: for `n = 1 .. DECAY - 1`,
`output = output + ((g_data[g_block_address[n]] * n) / DECAY)`, stored into the `uint16_t`
variable `output` at every step. -/
def delaySum (DECAY : Nat) (g_data g_block_address : Nat → Nat) : Nat :=
  (List.range' 1 (DECAY - 1)).foldl
    (fun output n => (output + (g_data (g_block_address n) * n) / DECAY) % 65536) 0

/-- Number of binary digits of `N` (`0` for `N = 0`); the first argument of `go` bounds the
number of halvings. -/
def bitLength (N : Nat) : Nat :=
  go N N
where
  /-- Count the halvings of `n` until it reaches `0`. -/
  go : Nat → Nat → Nat
    | 0, _ => 0
    | fuel + 1, n => if n = 0 then 0 else go fuel (n / 2) + 1

/-- Round a natural number to 53 significant bits, to nearest, ties to even: the rounding
of binary64 arithmetic applied to the numerator of a dyadic rational (the power of two in
the denominator does not change which bits are kept). -/
def roundSignificand (N : Nat) : Nat :=
  let bits := bitLength N
  if bits ≤ 53 then N
  else
    let shift := bits - 53
    let q := N / 2 ^ shift
    let r := N % 2 ^ shift
    let half := 2 ^ (shift - 1)
    if r > half ∨ (r = half ∧ q % 2 = 1) then (q + 1) * 2 ^ shift else q * 2 ^ shift

/-- The statement `output *= c` for a `uint16_t output` and the binary64 constant
`c = m / 2 ^ e`: `output` is converted to binary64 (exactly), the product is rounded to
binary64, and the conversion back to `uint16_t` discards the fractional part. -/
def mulDouble (output m e : Nat) : Nat :=
  roundSignificand (output * m) / 2 ^ e

/-- The binary64 value of the decimal literals in the `switch` of `GetDelayOutput`, as
significand and binary exponent `(m, e)` with value `m / 2 ^ e`; `none` for the `default`
case. -/
def normalization (DECAY : Nat) : Option (Nat × Nat) :=
  match DECAY with
  | 4 => some (5404319552844595, 53)   -- 0.6
  | 5 => some (4503599627370496, 53)   -- 0.5
  | 6 => some (7205759403792794, 54)   -- 0.4
  | 7 => some (5404319552844595, 54)   -- 0.3
  | 8 => some (5044031582654956, 54)   -- 0.28
  | 9 => some (4503599627370496, 54)   -- 0.25
  | 10 => some (7926335344172073, 55)  -- 0.22
  | _ => none

/-- The decimal literal of the `case` for `DECAY` in the `switch` of `GetDelayOutput`, as a
fraction `(numerator, denominator)`; `(1, 1)` for the `default` case. -/
def decimalMultiplier (DECAY : Nat) : Nat × Nat :=
  match DECAY with
  | 4 => (6, 10)
  | 5 => (5, 10)
  | 6 => (4, 10)
  | 7 => (3, 10)
  | 8 => (28, 100)
  | 9 => (25, 100)
  | 10 => (22, 100)
  | _ => (1, 1)

/-- `GetDelayOutput`: the accumulation loop followed by the normalization `switch`. -/
def GetDelayOutput (DECAY : Nat) (g_data g_block_address : Nat → Nat) : Nat :=
  let output := delaySum DECAY g_data g_block_address
  match normalization DECAY with
  | some (m, e) => mulDouble output m e
  | none => output

/-- The sum `S` of the specification: the sum over `n = 1 .. DECAY - 1` of
`floor(s_n * n / DECAY)`, where `s_n` is the buffer value at tap position `n`, as an
unbounded natural number. -/
def echoSum (DECAY : Nat) (g_data g_block_address : Nat → Nat) : Nat :=
  ((List.range' 1 (DECAY - 1)).map fun n => g_data (g_block_address n) * n / DECAY).sum

/-- `GetMixOutput`: `((MIX * g_data[g_block_address[0]]) / 10) +
(((10 - MIX) * delay_output) / 10)`, computed in `int` (division truncates towards zero)
and converted to `uint16_t`. -/
def GetMixOutput (MIX : Nat) (g_data g_block_address : Nat → Nat) (delay_output : Nat) : Nat :=
  ((((MIX : Int) * (g_data (g_block_address 0) : Int)).tdiv 10 +
      ((10 - (MIX : Int)) * (delay_output : Int)).tdiv 10) % 65536).toNat

/-- The word `SendSampleToDAC` hands to `SSIDataPut`: `(*data | 0x4000) & 0xFFFF`. -/
def SendSampleToDAC (data : Nat) : Nat :=
  (data ||| 0x4000) &&& 0xFFFF

/-- `ADC0IntHandler`: the conversion result `raw` is placed in `g_input_buffer[0]` and
`g_sample_complete` is set. -/
def ADC0IntHandler (raw : Nat) (s : State) : State :=
  { s with g_input_buffer := raw, g_sample_complete := 1 }

/-- `Convert32to16`: `value & 0xFFFF`, stored in a `uint16_t`. -/
def Convert32to16 (value : Nat) : Nat :=
  (value &&& 0xFFFF) % 65536

/-- `IncBlockAddress`: for `n = 0 .. DECAY - 1`, `g_block_address[n]++` (in `uint16_t`),
then `g_block_address[n] = 0` if it exceeds `top_mem_address`. -/
def IncBlockAddress (DECAY top_mem_address : Nat) (g_block_address : Nat → Nat) : Nat → Nat :=
  (List.range DECAY).foldl
    (fun a n =>
      let a1 := store a n ((a n + 1) % 65536)
      if a1 n > top_mem_address then store a1 n 0 else a1)
    g_block_address

/-- The new value `IncBlockAddress` gives an address `x`: incremented in `uint16_t`, and
reset to `0` when the result exceeds `top_mem_address`. -/
def incAddress (top_mem_address x : Nat) : Nat :=
  if (x + 1) % 65536 > top_mem_address then 0 else (x + 1) % 65536

/-! ## `main` -/

/-- The local `uint32_t block_space = SAMPLE_RATE_kHz * DELAY_TIME_ms` of `main`: the
product of the two `uint16_t` constants, converted to `uint32_t`. -/
def block_space (cfg : Config) : Nat :=
  (cfg.SAMPLE_RATE_kHz * cfg.DELAY_TIME_ms) % 2 ^ 32

/-- The local `uint16_t top_mem_address = DECAY * block_space - 1` of `main`: computed in
`uint32_t`, converted to `uint16_t`. -/
def top_mem_address (cfg : Config) : Nat :=
  ((cfg.DECAY * block_space cfg + (2 ^ 32 - 1)) % 2 ^ 32) % 65536

/-- The state in which `main` enters its loop: zero-initialised globals, then
`InitBlockAddress(block_space)` (the argument converted to `uint16_t`). -/
def initState (cfg : Config) : State :=
  { g_input_buffer := 0
    g_data := fun _ => 0
    g_block_address := InitBlockAddress cfg.DECAY (block_space cfg % 65536) (fun _ => 0)
    g_sample_complete := 0
    ssi := [] }

/-- The array `g_data` after `g_data[g_block_address[0]] = current_sample`. -/
def tickData (s : State) : Nat → Nat :=
  store s.g_data (s.g_block_address 0) (Convert32to16 s.g_input_buffer)

/-- The value of `delay_output` in the `case 1` body. -/
def tickDelayOutput (cfg : Config) (s : State) : Nat :=
  GetDelayOutput cfg.DECAY (tickData s) s.g_block_address

/-- The value of `mix_output` in the `case 1` body. -/
def tickMixOutput (cfg : Config) (s : State) : Nat :=
  GetMixOutput cfg.MIX (tickData s) s.g_block_address (tickDelayOutput cfg s)

/-- The `case 1` body of the loop of `main`: one tick of the pipeline. -/
def tick (cfg : Config) (s : State) : State :=
  { g_input_buffer := s.g_input_buffer
    g_data := tickData s
    g_block_address := IncBlockAddress cfg.DECAY (top_mem_address cfg) s.g_block_address
    g_sample_complete := 0
    ssi := s.ssi ++ [SendSampleToDAC (tickMixOutput cfg s)] }

/-- One iteration of `while(1)`: `switch(g_sample_complete)`. -/
def mainLoop (cfg : Config) (s : State) : State :=
  if s.g_sample_complete = 1 then tick cfg s else s

/-- One sample period in which the loop keeps up: the ADC interrupt delivers `raw`, then
the loop runs its `case 1` body. -/
def period (cfg : Config) (raw : Nat) (s : State) : State :=
  mainLoop cfg (ADC0IntHandler raw s)

/-- The state after the sample periods of the first `k` values of the input `x`
(`x 0` first), starting from `s`. -/
def runFrom (cfg : Config) (x : Nat → Nat) (s : State) : Nat → State
  | 0 => s
  | k + 1 => period cfg (x k) (runFrom cfg x s k)

/-- The state after `k` sample periods from the start of `main`. -/
def run (cfg : Config) (x : Nat → Nat) (k : Nat) : State :=
  runFrom cfg x (initState cfg) k

/-- What can happen between two observations of the program: the ADC interrupt fires with
a conversion result, or the loop of `main` runs one iteration. -/
inductive Event where
  | adc (raw : Nat)
  | loop

/-- The effect of one event on the state. -/
def step (cfg : Config) (s : State) : Event → State
  | .adc raw => ADC0IntHandler raw s
  | .loop => mainLoop cfg s

/-- The state `main` reaches from its start through a sequence of events. -/
def exec (cfg : Config) (es : List Event) : State :=
  es.foldl (step cfg) (initState cfg)

/-- The input of the step scenario: `1000` at tick `0`, `0` at every later tick. -/
def stepInput (t : Nat) : Nat :=
  if t = 0 then 1000 else 0

/-- The state in which tick `t` (ticks counted from `0`) of the run on input `x` starts its
`case 1` body: `t` sample periods have passed and the ADC interrupt has delivered `x t`. -/
def tickState (cfg : Config) (x : Nat → Nat) (t : Nat) : State :=
  ADC0IntHandler (x t) (run cfg x t)

/-- A saturated buffer and a saturated new sample in the reference configuration. -/
def saturated : State :=
  { g_input_buffer := 4095
    g_data := fun _ => 4095
    g_block_address := (initState reference).g_block_address
    g_sample_complete := 1
    ssi := [] }

/-- An input that numbers the ticks: the sample of tick `t` is `t`. -/
def tickNumber (t : Nat) : Nat := t

/-- The sum over `n = 1 .. DECAY - 1` of `floor(4095 * n / DECAY)`: the echo sum of a
saturated buffer before normalization. -/
def saturatedSum (DECAY : Nat) : Nat :=
  ((List.range' 1 (DECAY - 1)).map fun n => 4095 * n / DECAY).sum

/-- The reference configuration with four taps instead of three. -/
def fourTaps : Config :=
  { SAMPLE_RATE_kHz := 16, DECAY := 4, DELAY_TIME_ms := 25, MIX := 4 }

/-- The indices at which the `case 1` body accesses `g_block_address`, in program order:
`0` for the store of the sample, `1 .. DECAY - 1` in `GetDelayOutput`, `0` in
`GetMixOutput`, and `0 .. DECAY - 1` in `IncBlockAddress`. -/
def tickTapIndices (cfg : Config) : List Nat :=
  [0] ++ List.range' 1 (cfg.DECAY - 1) ++ [0] ++ List.range cfg.DECAY

/-- The indices at which the `case 1` body accesses `g_data`, in program order: the live
position for the store of the sample, the positions of the taps `1 .. DECAY - 1` in
`GetDelayOutput`, and the live position in `GetMixOutput`. -/
def tickDataIndices (cfg : Config) (s : State) : List Nat :=
  [s.g_block_address 0] ++ (List.range' 1 (cfg.DECAY - 1)).map s.g_block_address
    ++ [s.g_block_address 0]

/-- Every array access of a tick started in state `s` is inside the declared storage. -/
def tickInBounds (cfg : Config) (s : State) : Prop :=
  (∀ n ∈ tickTapIndices cfg, n < g_block_address_len) ∧
  (∀ p ∈ tickDataIndices cfg s, p < g_data_len)

instance (cfg : Config) (s : State) : Decidable (tickInBounds cfg s) := by
  unfold tickInBounds
  infer_instance

/-- The reference configuration with a delay of 0 ms, so that `block_space = 0`. -/
def zeroDelay : Config :=
  { SAMPLE_RATE_kHz := 16, DECAY := 3, DELAY_TIME_ms := 0, MIX := 4 }

/-- The indices at which the accumulation loop of `GetDelayOutput` reads
`g_block_address`: `n = 1 .. DECAY - 1`. -/
def delayTapIndices (DECAY : Nat) : List Nat :=
  List.range' 1 (DECAY - 1)

/-- The indices at which the accumulation loop of `GetDelayOutput` reads `g_data`: the
positions of the taps `1 .. DECAY - 1`. -/
def delayDataIndices (DECAY : Nat) (g_block_address : Nat → Nat) : List Nat :=
  (List.range' 1 (DECAY - 1)).map g_block_address

/-- Every array access of `GetDelayOutput` is inside the declared storage. -/
def delayInBounds (DECAY : Nat) (g_block_address : Nat → Nat) : Prop :=
  (∀ n ∈ delayTapIndices DECAY, n < g_block_address_len) ∧
  (∀ p ∈ delayDataIndices DECAY g_block_address, p < g_data_len)

instance (DECAY : Nat) (g_block_address : Nat → Nat) :
    Decidable (delayInBounds DECAY g_block_address) := by
  unfold delayInBounds
  infer_instance

/-- `GetDelayOutput` as the C program defines it: its value when every array access of the
loop is inside the declared arrays, `none` when one is outside (undefined behaviour). -/
def GetDelayOutputChecked (DECAY : Nat) (g_data g_block_address : Nat → Nat) : Option Nat :=
  if delayInBounds DECAY g_block_address then some (GetDelayOutput DECAY g_data g_block_address)
  else none

/-- The `case 1` body as the C program defines it: the state it leaves when every array
access is inside the declared arrays, `none` when one is outside (undefined behaviour). -/
def tickChecked (cfg : Config) (s : State) : Option State :=
  if tickInBounds cfg s then some (tick cfg s) else none

/-- The reference configuration with seven taps instead of three. -/
def sevenTaps : Config :=
  { SAMPLE_RATE_kHz := 16, DECAY := 7, DELAY_TIME_ms := 25, MIX := 4 }

/-! ## Array loops -/

theorem store_apply (a : Nat → Nat) (i v j : Nat) :
    store a i v j = if j = i then v else a j := rfl

theorem store_same (a : Nat → Nat) (i v : Nat) : store a i v i = v := by
  simp [store]

theorem store_other (a : Nat → Nat) (i v j : Nat) (h : j ≠ i) : store a i v j = a j := by
  simp [store, h]

/-- A loop that stores `f n` at index `n` for `n = s .. s + len - 1`. -/
theorem foldl_store_const (f : Nat → Nat) (len : Nat) :
    ∀ (s : Nat) (a : Nat → Nat) (j : Nat),
      (List.range' s len).foldl (fun a n => store a n (f n)) a j
        = if s ≤ j ∧ j < s + len then f j else a j := by
  induction len with
  | zero => intro s a j; rw [if_neg (by omega)]; rfl
  | succ len ih =>
    intro s a j
    rw [List.range'_succ, List.foldl_cons, ih]
    by_cases h1 : j = s
    · subst h1; simp [store_same]
    · rw [store_other _ _ _ _ h1]
      by_cases h2 : s + 1 ≤ j ∧ j < s + 1 + len
      · rw [if_pos h2, if_pos (by omega)]
      · rw [if_neg h2, if_neg (by omega)]

/-- A loop that replaces the entry at index `n` by `h` of it for `n = s .. s + len - 1`. -/
theorem foldl_store_update (h : Nat → Nat) (len : Nat) :
    ∀ (s : Nat) (a : Nat → Nat) (j : Nat),
      (List.range' s len).foldl (fun a n => store a n (h (a n))) a j
        = if s ≤ j ∧ j < s + len then h (a j) else a j := by
  induction len with
  | zero => intro s a j; rw [if_neg (by omega)]; rfl
  | succ len ih =>
    intro s a j
    rw [List.range'_succ, List.foldl_cons, ih]
    by_cases h1 : j = s
    · subst h1; simp [store_same]
    · rw [store_other _ _ _ _ h1]
      by_cases h2 : s + 1 ≤ j ∧ j < s + 1 + len
      · rw [if_pos h2, if_pos (by omega)]
      · rw [if_neg h2, if_neg (by omega)]

theorem IncBlockAddress_apply (DECAY top : Nat) (a : Nat → Nat) (j : Nat) :
    IncBlockAddress DECAY top a j = if j < DECAY then incAddress top (a j) else a j := by
  have hstep : (fun (a : Nat → Nat) (n : Nat) =>
        let a1 := store a n ((a n + 1) % 65536)
        if a1 n > top then store a1 n 0 else a1)
      = fun a n => store a n (incAddress top (a n)) := by
    funext a n j
    simp only [store_same, incAddress]
    by_cases hc : (a n + 1) % 65536 > top
    · simp only [if_pos hc, store_apply]
      by_cases hj : j = n <;> simp [hj]
    · simp only [if_neg hc]
  unfold IncBlockAddress
  rw [hstep, List.range_eq_range', foldl_store_update]
  simp

theorem InitBlockAddress_apply (DECAY bs : Nat) (a : Nat → Nat) (j : Nat) :
    InitBlockAddress DECAY bs a j
      = if 1 ≤ j ∧ j < DECAY then (((bs : Int) * (j : Int) - 1) % 65536).toNat
        else if j = 0 then 0 else a j := by
  unfold InitBlockAddress
  rw [foldl_store_const (fun n => (((bs : Int) * (n : Int) - 1) % 65536).toNat)]
  by_cases h : 1 ≤ j ∧ j < DECAY
  · rw [if_pos (by omega), if_pos h]
  · rw [if_neg (by omega), if_neg h, store_apply]

/-! ## Address arithmetic -/

/-- The address a valid configuration gives tap `n ≥ 1`. -/
theorem initAddress_eq (bs n : Nat) (h1 : 1 ≤ bs) (hn : 1 ≤ n) (h : bs * n ≤ 65536) :
    (((bs : Int) * (n : Int) - 1) % 65536).toNat = bs * n - 1 := by
  have hpos : 1 ≤ bs * n := Nat.mul_pos h1 hn
  have hcast : ((bs : Int) * (n : Int) - 1) = ((bs * n - 1 : Nat) : Int) := by
    push_cast [Nat.cast_sub hpos]; ring
  rw [hcast]
  have : ((bs * n - 1 : Nat) : Int) % 65536 = ((bs * n - 1 : Nat) : Int) := by
    apply Int.emod_eq_of_lt <;> omega
  rw [this]; simp

theorem incAddress_eq (C x : Nat) (hC : 0 < C) (hC' : C ≤ 65536) (hx : x < C) :
    incAddress (C - 1) x = (x + 1) % C := by
  unfold incAddress
  by_cases hlast : x + 1 = C
  · have h0 : (x + 1) % C = 0 := by rw [hlast]; exact Nat.mod_self C
    rw [h0]
    by_cases h65 : C = 65536
    · subst h65; rw [h0]; simp
    · have : (x + 1) % 65536 = x + 1 := Nat.mod_eq_of_lt (by omega)
      rw [this, if_pos (by omega)]
  · have h1 : (x + 1) % 65536 = x + 1 := Nat.mod_eq_of_lt (by omega)
    have h2 : (x + 1) % C = x + 1 := Nat.mod_eq_of_lt (by omega)
    rw [h1, h2, if_neg (by omega)]

theorem iterate_IncBlockAddress (DECAY C : Nat) (hC : 0 < C) (hC' : C ≤ 65536) (k : Nat) :
    ∀ (a : Nat → Nat), (∀ n, n < DECAY → a n < C) →
      ∀ n, n < DECAY → (IncBlockAddress DECAY (C - 1))^[k] a n = (a n + k) % C := by
  induction k with
  | zero =>
    intro a ha n hn
    simp [Nat.mod_eq_of_lt (ha n hn)]
  | succ k ih =>
    intro a ha n hn
    rw [Function.iterate_succ_apply', IncBlockAddress_apply, if_pos hn,
      ih a ha n hn, incAddress_eq C _ hC hC' (Nat.mod_lt _ hC)]
    rw [Nat.add_mod, Nat.mod_mod, ← Nat.add_mod, Nat.add_assoc]


theorem incAddress_le (top x : Nat) : incAddress top x ≤ top := by
  unfold incAddress
  split <;> omega

theorem top_mem_address_eq (cfg : Config) (h0 : 0 < cfg.DECAY * block_space cfg)
    (h1 : cfg.DECAY * block_space cfg ≤ 65536) :
    top_mem_address cfg = cfg.DECAY * block_space cfg - 1 := by
  unfold top_mem_address
  omega

theorem initState_address_le (cfg : Config) (h0 : 0 < cfg.DECAY * block_space cfg)
    (h1 : cfg.DECAY * block_space cfg ≤ 65536) (n : Nat) (hn : n < cfg.DECAY) :
    (initState cfg).g_block_address n ≤ cfg.DECAY * block_space cfg - 1 := by
  show InitBlockAddress cfg.DECAY (block_space cfg % 65536) (fun _ => 0) n ≤ _
  rw [InitBlockAddress_apply]
  by_cases hj : 1 ≤ n ∧ n < cfg.DECAY
  · rw [if_pos hj]
    have hb : 1 ≤ block_space cfg := Nat.pos_of_mul_pos_left h0
    have hmul : block_space cfg * n < cfg.DECAY * block_space cfg := by
      rw [Nat.mul_comm]; exact Nat.mul_lt_mul_of_pos_right hn hb
    have h2 : block_space cfg * 2 ≤ cfg.DECAY * block_space cfg := by
      rw [Nat.mul_comm]; exact Nat.mul_le_mul_right _ (by omega)
    have hbs : block_space cfg % 65536 = block_space cfg := Nat.mod_eq_of_lt (by omega)
    rw [hbs, initAddress_eq _ _ hb hj.1 (by omega)]
    omega
  · rw [if_neg hj]
    split <;> omega

theorem step_address_le (cfg : Config) (top : Nat) (htop : top_mem_address cfg = top)
    (s : State) (e : Event) (hs : ∀ n, n < cfg.DECAY → s.g_block_address n ≤ top) :
    ∀ n, n < cfg.DECAY → (step cfg s e).g_block_address n ≤ top := by
  intro n hn
  cases e with
  | adc raw => exact hs n hn
  | loop =>
    show (mainLoop cfg s).g_block_address n ≤ top
    unfold mainLoop
    split
    · show IncBlockAddress cfg.DECAY (top_mem_address cfg) s.g_block_address n ≤ top
      rw [IncBlockAddress_apply, if_pos hn, htop]
      exact incAddress_le _ _
    · exact hs n hn

theorem foldl_step_address_le (cfg : Config) (top : Nat) (htop : top_mem_address cfg = top)
    (es : List Event) :
    ∀ s : State, (∀ n, n < cfg.DECAY → s.g_block_address n ≤ top) →
      ∀ n, n < cfg.DECAY → (es.foldl (step cfg) s).g_block_address n ≤ top := by
  induction es with
  | nil => intro s hs; exact hs
  | cons e es ih =>
    intro s hs
    rw [List.foldl_cons]
    exact ih _ (step_address_le cfg top htop s e hs)

theorem SendSampleToDAC_eq (v : Nat) (hv : v ≤ 0x0FFF) : SendSampleToDAC v = 0x4000 + v := by
  unfold SendSampleToDAC
  have h1 : v ||| 0x4000 = 0x4000 + v := by
    have := Nat.mul_add_lt_is_or (show v < 2 ^ 14 by omega) 1
    rw [Nat.or_comm]
    simpa using this.symm
  have h2 : (0xFFFF : Nat) = 2 ^ 16 - 1 := by norm_num
  rw [h1, h2, Nat.and_pow_two_sub_one_eq_mod]
  omega

/-! ## The binary64 multiplication of `GetDelayOutput` -/

theorem bitLength_go_spec (fuel : Nat) :
    ∀ n, n ≤ fuel → 0 < n →
      2 ^ (bitLength.go fuel n - 1) ≤ n ∧ n < 2 ^ (bitLength.go fuel n) ∧
        0 < bitLength.go fuel n := by
  induction fuel with
  | zero => intro n h0 hpos; omega
  | succ fuel ih =>
    intro n hle hpos
    rw [bitLength.go, if_neg (by omega)]
    by_cases h1 : n / 2 = 0
    · have hn : n = 1 := by omega
      subst hn
      cases fuel <;> simp [bitLength.go]
    · obtain ⟨hlo, hhi, hg⟩ := ih (n / 2) (by omega) (by omega)
      have hpow : 2 ^ (bitLength.go fuel (n / 2)) = 2 * 2 ^ (bitLength.go fuel (n / 2) - 1) := by
        rw [← Nat.pow_succ']
        congr 1
        omega
      refine ⟨?_, ?_, by omega⟩
      · rw [Nat.add_sub_cancel, hpow]; omega
      · rw [Nat.pow_succ]; omega

theorem bitLength_spec (N : Nat) (hN : 0 < N) :
    2 ^ (bitLength N - 1) ≤ N ∧ N < 2 ^ bitLength N ∧ 0 < bitLength N :=
  bitLength_go_spec N N (Nat.le_refl N) hN

theorem bitLength_le (N k : Nat) (hN : 0 < N) (h : N < 2 ^ k) : bitLength N ≤ k := by
  obtain ⟨hlo, _, hpos⟩ := bitLength_spec N hN
  by_contra hc
  have : 2 ^ k ≤ 2 ^ (bitLength N - 1) := Nat.pow_le_pow_right (by decide) (by omega)
  omega


theorem roundSignificand_of_bitLength (N sh : Nat) (hsh : 0 < sh) (hb : bitLength N = 53 + sh) :
    roundSignificand N =
      if N % 2 ^ sh > 2 ^ (sh - 1) ∨ (N % 2 ^ sh = 2 ^ (sh - 1) ∧ N / 2 ^ sh % 2 = 1)
      then (N / 2 ^ sh + 1) * 2 ^ sh else N / 2 ^ sh * 2 ^ sh := by
  unfold roundSignificand
  simp only [hb]
  rw [if_neg (by omega)]
  simp only [Nat.add_sub_cancel_left]

theorem roundSignificand_small (N : Nat) (hb : bitLength N ≤ 53) : roundSignificand N = N := by
  unfold roundSignificand
  simp only [if_pos hb]

/-- Case analysis of `mulDouble` on the number of bits the rounding discards. -/
theorem mulDouble_elim (S m e r : Nat) (hS : 0 < S * m) (hN : S * m < 2 ^ 69)
    (hsmall : S * m < 2 ^ 53 → S * m / 2 ^ e = r)
    (hbig : ∀ sh, 1 ≤ sh → sh ≤ 16 → 2 ^ (52 + sh) ≤ S * m → S * m < 2 ^ (53 + sh) →
      (if S * m % 2 ^ sh > 2 ^ (sh - 1) ∨
            (S * m % 2 ^ sh = 2 ^ (sh - 1) ∧ S * m / 2 ^ sh % 2 = 1)
        then (S * m / 2 ^ sh + 1) * 2 ^ sh else S * m / 2 ^ sh * 2 ^ sh) / 2 ^ e = r) :
    mulDouble S m e = r := by
  unfold mulDouble
  obtain ⟨hlo, hhi, hbpos⟩ := bitLength_spec _ hS
  have hle : bitLength (S * m) ≤ 69 := bitLength_le _ 69 hS hN
  by_cases hb : bitLength (S * m) ≤ 53
  · rw [roundSignificand_small _ hb]
    exact hsmall (Nat.lt_of_lt_of_le hhi (Nat.pow_le_pow_right (by decide) hb))
  · obtain ⟨sh, hsh⟩ : ∃ sh, bitLength (S * m) = 53 + sh := ⟨bitLength (S * m) - 53, by omega⟩
    rw [roundSignificand_of_bitLength _ sh (by omega) hsh]
    rw [hsh] at hlo hhi
    have e1 : 53 + sh - 1 = 52 + sh := by omega
    rw [e1] at hlo
    exact hbig sh (by omega) (by omega) hlo hhi

/-- On a 16-bit operand the binary64 multiplication by a constant of the `switch`, followed
by the conversion to `uint16_t`, yields the integer part of the exact decimal product. -/
theorem mulDouble_table (D S m e : Nat) (hD4 : 4 ≤ D) (hD10 : D ≤ 10) (hS : S < 65536)
    (hn : normalization D = some (m, e)) :
    mulDouble S m e = (decimalMultiplier D).1 * S / (decimalMultiplier D).2 := by
  by_cases h0 : S = 0
  · subst h0
    interval_cases D <;> simp only [normalization, Option.some.injEq, Prod.mk.injEq] at hn <;>
      obtain ⟨rfl, rfl⟩ := hn <;> decide
  · interval_cases D <;> simp only [normalization, Option.some.injEq, Prod.mk.injEq] at hn <;>
      obtain ⟨rfl, rfl⟩ := hn <;> simp only [decimalMultiplier] <;>
      apply mulDouble_elim <;>
      first
      | omega
      | (intro hlt; omega)
      | (intro sh h1 h2 hlo hhi
         interval_cases sh <;>
           simp only [Nat.reduceAdd, Nat.reduceSub, Nat.reducePow] at hlo hhi ⊢ <;>
           split <;> omega)

/-- The constants of `normalization` are the binary64 numbers nearest to the decimal
literals: the significand has 53 bits and the distance to the literal is at most half a
unit in the last place. -/
theorem normalization_nearest (D m e : Nat) (hD4 : 4 ≤ D) (hD10 : D ≤ 10)
    (hn : normalization D = some (m, e)) :
    2 ^ 52 ≤ m ∧ m < 2 ^ 53 ∧
    2 * ((decimalMultiplier D).2 * m) ≤ 2 * ((decimalMultiplier D).1 * 2 ^ e)
      + (decimalMultiplier D).2 ∧
    2 * ((decimalMultiplier D).1 * 2 ^ e) ≤ 2 * ((decimalMultiplier D).2 * m)
      + (decimalMultiplier D).2 := by
  interval_cases D <;> simp only [normalization, Option.some.injEq, Prod.mk.injEq] at hn <;>
    obtain ⟨rfl, rfl⟩ := hn <;> decide

/-- A 16-bit accumulation started at a 16-bit value is the unbounded sum modulo `65536`. -/
theorem foldl_add_mod (f : Nat → Nat) (l : List Nat) :
    ∀ acc, l.foldl (fun output n => (output + f n) % 65536) (acc % 65536)
      = (acc + (l.map f).sum) % 65536 := by
  induction l with
  | nil => intro acc; simp
  | cons x l ih =>
    intro acc
    rw [List.foldl_cons, ih, List.map_cons, List.sum_cons]
    omega

theorem delaySum_eq (DECAY : Nat) (g_data g_block_address : Nat → Nat) :
    delaySum DECAY g_data g_block_address = echoSum DECAY g_data g_block_address % 65536 := by
  unfold delaySum echoSum
  have := foldl_add_mod (fun n => g_data (g_block_address n) * n / DECAY)
    (List.range' 1 (DECAY - 1)) 0
  simpa using this

/-- Twice the weighted sum over the taps `s .. s + len - 1` of 12-bit samples, times the
divisor, is bounded by the sum of `2 * 4095 * n`. -/
theorem weighted_sum_bound (d : Nat) (g : Nat → Nat) (hg : ∀ n, g n ≤ 4095) (len : Nat) :
    d * (2 * ((List.range' 1 len).map fun n => g n * n / d).sum) ≤ 4095 * (len * (len + 1)) := by
  induction len with
  | zero => simp
  | succ len ih =>
    rw [List.range'_1_concat, List.map_append, List.sum_append, List.map_singleton,
      List.sum_singleton]
    have h1 : d * (g (1 + len) * (1 + len) / d) ≤ g (1 + len) * (1 + len) :=
      Nat.mul_div_le _ _
    have h2 : g (1 + len) * (1 + len) ≤ 4095 * (1 + len) := Nat.mul_le_mul_right _ (hg _)
    have e1 : d * (2 * (((List.range' 1 len).map fun n => g n * n / d).sum
        + g (1 + len) * (1 + len) / d))
        = d * (2 * ((List.range' 1 len).map fun n => g n * n / d).sum)
          + 2 * (d * (g (1 + len) * (1 + len) / d)) := by ring
    have e2 : 4095 * ((len + 1) * (len + 1 + 1)) = 4095 * (len * (len + 1)) + 2 * (4095 * (1 + len)) := by
      ring
    rw [e1, e2]
    omega

theorem echoSum_bound (DECAY : Nat) (g_data g_block_address : Nat → Nat)
    (h12 : ∀ i, g_data i ≤ 4095) :
    2 * echoSum DECAY g_data g_block_address ≤ 4095 * (DECAY - 1) := by
  rcases Nat.eq_zero_or_pos DECAY with h0 | hpos
  · subst h0; simp [echoSum]
  · have h := weighted_sum_bound DECAY (fun n => g_data (g_block_address n))
      (fun n => h12 _) (DECAY - 1)
    have e : DECAY - 1 + 1 = DECAY := by omega
    rw [e] at h
    have h' : DECAY * (2 * echoSum DECAY g_data g_block_address)
        ≤ DECAY * (4095 * (DECAY - 1)) := by
      calc DECAY * (2 * echoSum DECAY g_data g_block_address)
          ≤ 4095 * ((DECAY - 1) * DECAY) := h
        _ = DECAY * (4095 * (DECAY - 1)) := by ring
    exact Nat.le_of_mul_le_mul_left h' hpos

/-! ## The echo and the blend in natural-number arithmetic -/

/-- `GetDelayOutput` with `DECAY = 3`: two accumulation steps and the `default` case. -/
theorem GetDelayOutput_default_three (g_data g_block_address : Nat → Nat) :
    GetDelayOutput 3 g_data g_block_address
      = (g_data (g_block_address 1) * 1 / 3 + g_data (g_block_address 2) * 2 / 3) % 65536 := by
  simp only [GetDelayOutput, normalization, delaySum]
  simp [List.range']

/-- For `MIX ≤ 10` and 16-bit operands no term of `GetMixOutput` is negative and the sum
fits in 16 bits. -/
theorem GetMixOutput_eq (g_data g_block_address : Nat → Nat) (echo : Nat)
    (hlive : g_data (g_block_address 0) < 65536) (hecho : echo < 65536) :
    ∀ mix, mix ≤ 10 → GetMixOutput mix g_data g_block_address echo
      = (mix * g_data (g_block_address 0)) / 10 + ((10 - mix) * echo) / 10 := by
  intro mix hmix
  unfold GetMixOutput
  have e1 : (10 - (mix : Int)) = ((10 - mix : Nat) : Int) := by omega
  rw [e1, ← Nat.cast_mul, ← Nat.cast_mul,
    Int.tdiv_eq_ediv (Int.ofNat_nonneg _) (by decide),
    Int.tdiv_eq_ediv (Int.ofNat_nonneg _) (by decide)]
  have hb : mix * g_data (g_block_address 0) / 10 + (10 - mix) * echo / 10 < 65536 := by
    have h1 : mix * g_data (g_block_address 0) ≤ mix * 65535 :=
      Nat.mul_le_mul_left _ (by omega)
    have h2 : (10 - mix) * echo ≤ (10 - mix) * 65535 := Nat.mul_le_mul_left _ (by omega)
    omega
  omega

theorem Convert32to16_eq (value : Nat) : Convert32to16 value = value % 65536 := by
  unfold Convert32to16
  have h : (0xFFFF : Nat) = 2 ^ 16 - 1 := by norm_num
  rw [h, Nat.and_pow_two_sub_one_eq_mod]
  omega

/-! ## One sample period -/

theorem period_g_data (cfg : Config) (raw : Nat) (s : State) :
    (period cfg raw s).g_data = store s.g_data (s.g_block_address 0) (Convert32to16 raw) := by
  simp [period, mainLoop, ADC0IntHandler, tick, tickData]

theorem period_g_block_address (cfg : Config) (raw : Nat) (s : State) :
    (period cfg raw s).g_block_address
      = IncBlockAddress cfg.DECAY (top_mem_address cfg) s.g_block_address := by
  simp [period, mainLoop, ADC0IntHandler, tick]

theorem period_ssi (cfg : Config) (raw : Nat) (s : State) :
    (period cfg raw s).ssi
      = s.ssi ++ [SendSampleToDAC (tickMixOutput cfg (ADC0IntHandler raw s))] := by
  simp [period, mainLoop, ADC0IntHandler, tick]

theorem tickData_le (s : State) (B : Nat) (hd : ∀ i, s.g_data i ≤ B)
    (hi : s.g_input_buffer ≤ B) : ∀ i, tickData s i ≤ B := by
  intro i
  unfold tickData
  rw [store_apply, Convert32to16_eq]
  split
  · exact Nat.le_trans (Nat.mod_le _ _) hi
  · exact hd i

/-! ## Runs of sample periods -/

theorem run_succ (cfg : Config) (x : Nat → Nat) (k : Nat) :
    run cfg x (k + 1) = period cfg (x k) (run cfg x k) := rfl

/-- Every tap position after `k` sample periods: the initial position advanced by `k`,
modulo `C = DECAY * block_space`. -/
theorem run_g_block_address (cfg : Config) (x : Nat → Nat)
    (h0 : 0 < cfg.DECAY * block_space cfg) (h1 : cfg.DECAY * block_space cfg ≤ 65536)
    (k : Nat) :
    ∀ n, n < cfg.DECAY → (run cfg x k).g_block_address n
      = ((initState cfg).g_block_address n + k) % (cfg.DECAY * block_space cfg) := by
  induction k with
  | zero =>
    intro n hn
    have := initState_address_le cfg h0 h1 n hn
    rw [Nat.add_zero, Nat.mod_eq_of_lt (by omega)]
    rfl
  | succ k ih =>
    intro n hn
    rw [run_succ, period_g_block_address, IncBlockAddress_apply, if_pos hn, ih n hn,
      top_mem_address_eq cfg h0 h1, incAddress_eq _ _ h0 h1 (Nat.mod_lt _ h0)]
    rw [Nat.add_mod, Nat.mod_mod, ← Nat.add_mod, Nat.add_assoc]

theorem initState_live (cfg : Config) : (initState cfg).g_block_address 0 = 0 := by
  show InitBlockAddress cfg.DECAY (block_space cfg % 65536) (fun _ => 0) 0 = 0
  rw [InitBlockAddress_apply, if_neg (by omega), if_pos rfl]

/-- The buffer during the first rotation: after `k ≤ C` sample periods slot `i < k` holds
the sample of tick `i` and every other slot still holds its initial `0`. -/
theorem run_g_data_first_rotation (cfg : Config) (x : Nat → Nat)
    (h0 : 0 < cfg.DECAY * block_space cfg) (h1 : cfg.DECAY * block_space cfg ≤ 65536)
    (k : Nat) (hk : k ≤ cfg.DECAY * block_space cfg) :
    ∀ i, (run cfg x k).g_data i = if i < k then Convert32to16 (x i) else 0 := by
  induction k with
  | zero => intro i; rfl
  | succ k ih =>
    intro i
    have hD : 0 < cfg.DECAY := Nat.pos_of_mul_pos_right h0
    have hlive : (run cfg x k).g_block_address 0 = k := by
      rw [run_g_block_address cfg x h0 h1 k 0 hD, initState_live, Nat.zero_add,
        Nat.mod_eq_of_lt (by omega)]
    rw [run_succ, period_g_data, hlive, store_apply, ih (by omega)]
    by_cases hik : i = k
    · subst hik; rw [if_pos rfl, if_pos (by omega)]
    · rw [if_neg hik]
      by_cases hlt : i < k
      · rw [if_pos hlt, if_pos (by omega)]
      · rw [if_neg hlt, if_neg (by omega)]

/-- The buffer the echo and the blend of tick `t` read, during the first rotation. -/
theorem tickData_first_rotation (cfg : Config) (x : Nat → Nat)
    (h0 : 0 < cfg.DECAY * block_space cfg) (h1 : cfg.DECAY * block_space cfg ≤ 65536)
    (t : Nat) (ht : t < cfg.DECAY * block_space cfg) :
    ∀ i, tickData (tickState cfg x t) i = if i ≤ t then Convert32to16 (x i) else 0 := by
  intro i
  have hD : 0 < cfg.DECAY := Nat.pos_of_mul_pos_right h0
  have hlive : (run cfg x t).g_block_address 0 = t := by
    rw [run_g_block_address cfg x h0 h1 t 0 hD, initState_live, Nat.zero_add,
      Nat.mod_eq_of_lt ht]
  show store (run cfg x t).g_data ((run cfg x t).g_block_address 0) (Convert32to16 (x t)) i = _
  rw [hlive, store_apply, run_g_data_first_rotation cfg x h0 h1 t (by omega)]
  by_cases hik : i = t
  · subst hik; rw [if_pos rfl, if_pos (Nat.le_refl _)]
  · rw [if_neg hik]
    by_cases hlt : i < t
    · rw [if_pos hlt, if_pos (by omega)]
    · rw [if_neg hlt, if_neg (by omega)]

theorem tickState_g_block_address (cfg : Config) (x : Nat → Nat) (t : Nat) :
    (tickState cfg x t).g_block_address = (run cfg x t).g_block_address := rfl

/-- The tap positions of the reference configuration at tick `t`. -/
theorem reference_taps (x : Nat → Nat) (t : Nat) :
    (tickState reference x t).g_block_address 0 = t % 1200 ∧
    (tickState reference x t).g_block_address 1 = (399 + t) % 1200 ∧
    (tickState reference x t).g_block_address 2 = (799 + t) % 1200 := by
  have h := run_g_block_address reference x (by decide) (by decide) t
  have e0 : (initState reference).g_block_address 0 = 0 := initState_live reference
  have e1 : (initState reference).g_block_address 1 = 399 := by
    show InitBlockAddress 3 (400 % 65536) (fun _ => 0) 1 = 399
    rw [InitBlockAddress_apply]; decide
  have e2 : (initState reference).g_block_address 2 = 799 := by
    show InitBlockAddress 3 (400 % 65536) (fun _ => 0) 2 = 799
    rw [InitBlockAddress_apply]; decide
  have hC : reference.DECAY * block_space reference = 1200 := by decide
  rw [tickState_g_block_address, h 0 (by decide), h 1 (by decide), h 2 (by decide), e0, e1, e2,
    hC, Nat.zero_add]
  exact ⟨rfl, rfl, rfl⟩

/-- The step scenario in the reference configuration: what tick `t < 1200` reads at
slot `i`. -/
theorem step_scenario_data (t : Nat) (ht : t < 1200) (i : Nat) :
    tickData (tickState reference stepInput t) i = if i = 0 then 1000 else 0 := by
  rw [tickData_first_rotation reference stepInput (by decide) (by decide) t
    (by show t < 1200; exact ht), Convert32to16_eq]
  unfold stepInput
  by_cases hi : i = 0
  · subst hi; simp
  · simp [hi]


/-- The echo of a tick with `DECAY = 3`, by the values the two taps read. -/
theorem tickDelayOutput_three (cfg : Config) (s : State) (hD : cfg.DECAY = 3) (s1 s2 : Nat)
    (h1 : tickData s (s.g_block_address 1) = s1) (h2 : tickData s (s.g_block_address 2) = s2) :
    tickDelayOutput cfg s = (s1 * 1 / 3 + s2 * 2 / 3) % 65536 := by
  unfold tickDelayOutput
  rw [hD, GetDelayOutput_default_three, h1, h2]

/-- The blend of a tick, by the live value and the echo. -/
theorem tickMixOutput_eq (cfg : Config) (s : State) (hM : cfg.MIX ≤ 10) (live echo : Nat)
    (hl : tickData s (s.g_block_address 0) = live) (he : tickDelayOutput cfg s = echo)
    (hlive : live < 65536) (hecho : echo < 65536) :
    tickMixOutput cfg s = cfg.MIX * live / 10 + (10 - cfg.MIX) * echo / 10 := by
  unfold tickMixOutput
  rw [he, GetMixOutput_eq _ _ _ (by rw [hl]; exact hlive) hecho _ hM, hl]

/-- What tick `t < 1200` of the step scenario computes, by the slots its taps point to. -/
theorem step_scenario_tick (t : Nat) (ht : t < 1200) (ht0 : 0 < t) :
    tickData (tickState reference stepInput t)
        ((tickState reference stepInput t).g_block_address 1)
      = (if (399 + t) % 1200 = 0 then 1000 else 0) ∧
    tickData (tickState reference stepInput t)
        ((tickState reference stepInput t).g_block_address 2)
      = (if (799 + t) % 1200 = 0 then 1000 else 0) ∧
    tickDelayOutput reference (tickState reference stepInput t)
      = (if (399 + t) % 1200 = 0 then 1000 else 0) * 1 / 3
        + (if (799 + t) % 1200 = 0 then 1000 else 0) * 2 / 3 ∧
    tickMixOutput reference (tickState reference stepInput t)
      = 4 * 0 / 10 + 6 * ((if (399 + t) % 1200 = 0 then 1000 else 0) * 1 / 3
        + (if (799 + t) % 1200 = 0 then 1000 else 0) * 2 / 3) / 10 := by
  obtain ⟨a0, a1, a2⟩ := reference_taps stepInput t
  have d0 : tickData (tickState reference stepInput t)
      ((tickState reference stepInput t).g_block_address 0) = 0 := by
    rw [step_scenario_data t ht, a0, Nat.mod_eq_of_lt ht, if_neg (by omega)]
  have d1 : tickData (tickState reference stepInput t)
      ((tickState reference stepInput t).g_block_address 1)
        = (if (399 + t) % 1200 = 0 then 1000 else 0) := by
    rw [a1]; exact step_scenario_data t ht _
  have d2 : tickData (tickState reference stepInput t)
      ((tickState reference stepInput t).g_block_address 2)
        = (if (799 + t) % 1200 = 0 then 1000 else 0) := by
    rw [a2]; exact step_scenario_data t ht _
  have hecho := tickDelayOutput_three reference _ rfl _ _ d1 d2
  have hsmall : ((if (399 + t) % 1200 = 0 then 1000 else 0) * 1 / 3
        + (if (799 + t) % 1200 = 0 then 1000 else 0) * 2 / 3) < 65536 := by
    split <;> split <;> decide
  rw [Nat.mod_eq_of_lt hsmall] at hecho
  refine ⟨d1, d2, hecho, ?_⟩
  exact tickMixOutput_eq reference _ (by decide) 0 _ d0 hecho (by decide) hsmall

theorem mainLoop_ready (cfg : Config) (s : State) (h : s.g_sample_complete = 1) :
    mainLoop cfg s = tick cfg s := by
  unfold mainLoop
  rw [if_pos h]

theorem mainLoop_idle (cfg : Config) (s : State) (h : s.g_sample_complete ≠ 1) :
    mainLoop cfg s = s := by
  unfold mainLoop
  rw [if_neg h]

theorem delaySum_lt (DECAY : Nat) (g_data g_block_address : Nat → Nat) :
    delaySum DECAY g_data g_block_address < 65536 := by
  rw [delaySum_eq]
  exact Nat.mod_lt _ (by decide)

/-- The result of `GetDelayOutput` is a 16-bit value. -/
theorem GetDelayOutput_lt (DECAY : Nat) (g_data g_block_address : Nat → Nat) :
    GetDelayOutput DECAY g_data g_block_address < 65536 := by
  have hs := delaySum_lt DECAY g_data g_block_address
  unfold GetDelayOutput
  by_cases hD : 4 ≤ DECAY ∧ DECAY ≤ 10
  · have hex : ∃ m e, normalization DECAY = some (m, e) := by
      obtain ⟨h4, h10⟩ := hD
      interval_cases DECAY <;> exact ⟨_, _, rfl⟩
    obtain ⟨m, e, hn⟩ := hex
    simp only [hn]
    rw [mulDouble_table DECAY _ m e hD.1 hD.2 hs hn]
    obtain ⟨h4, h10⟩ := hD
    interval_cases DECAY <;> simp only [decimalMultiplier] <;> omega
  · have hn : normalization DECAY = none := by
      unfold normalization
      split <;> first | rfl | omega
    simp only [hn]
    exact hs

/-- The result of `GetMixOutput` is a 16-bit value. -/
theorem GetMixOutput_lt (MIX : Nat) (g_data g_block_address : Nat → Nat) (d : Nat) :
    GetMixOutput MIX g_data g_block_address d < 65536 := by
  unfold GetMixOutput
  omega

/-- On a 16-bit value the mask `& 0xFFFF` of `SendSampleToDAC` changes nothing. -/
theorem SendSampleToDAC_or (data : Nat) (h : data < 65536) :
    SendSampleToDAC data = data ||| 0x4000 := by
  unfold SendSampleToDAC
  have h2 : (0xFFFF : Nat) = 2 ^ 16 - 1 := by norm_num
  have hlt : data ||| 0x4000 < 2 ^ 16 := Nat.or_lt_two_pow (by omega) (by decide)
  rw [h2, Nat.and_pow_two_sub_one_eq_mod, Nat.mod_eq_of_lt hlt]

/-- As long as the unbounded sum stays below `65536`, the 16-bit accumulation over a list
of taps equals it. -/
theorem foldl_add_mod_exact (f : Nat → Nat) (l : List Nat) (h : (l.map f).sum < 65536) :
    l.foldl (fun output n => (output + f n) % 65536) 0 = (l.map f).sum := by
  have := foldl_add_mod f l 0
  rw [Nat.zero_mod, Nat.zero_add, Nat.mod_eq_of_lt h] at this
  exact this

/-- The unbounded sum of the first `j` terms of the echo, for 12-bit samples and
`j < DECAY`. -/
theorem partial_sum_le (DECAY : Nat) (g : Nat → Nat) (hg : ∀ n, g n ≤ 4095) (j : Nat)
    (hj : j < DECAY) :
    ((List.range' 1 j).map fun n => g n * n / DECAY).sum ≤ 4095 * j := by
  induction j with
  | zero => simp
  | succ j ih =>
    rw [List.range'_1_concat, List.map_append, List.sum_append, List.map_singleton,
      List.sum_singleton]
    have h1 := ih (by omega)
    have h2 : g (1 + j) * (1 + j) / DECAY ≤ 4095 := by
      have hle : g (1 + j) * (1 + j) ≤ 4095 * DECAY :=
        Nat.mul_le_mul (hg _) (by omega)
      calc g (1 + j) * (1 + j) / DECAY ≤ 4095 * DECAY / DECAY := Nat.div_le_div_right hle
        _ = 4095 := Nat.mul_div_cancel _ (by omega)
    omega

/-- The buffer a tick reads is the buffer the sample period leaves. -/
theorem tickData_tickState (cfg : Config) (x : Nat → Nat) (t : Nat) :
    tickData (tickState cfg x t) = (run cfg x (t + 1)).g_data := by
  rw [run_succ, period_g_data]
  rfl

/-- The live position after `k` sample periods. -/
theorem run_live (cfg : Config) (x : Nat → Nat)
    (h0 : 0 < cfg.DECAY * block_space cfg) (h1 : cfg.DECAY * block_space cfg ≤ 65536)
    (k : Nat) :
    (run cfg x k).g_block_address 0 = k % (cfg.DECAY * block_space cfg) := by
  rw [run_g_block_address cfg x h0 h1 k 0 (Nat.pos_of_mul_pos_right h0), initState_live,
    Nat.zero_add]

/-- The initial position of an echo tap in a valid configuration. -/
theorem initState_tap (cfg : Config) (h0 : 0 < cfg.DECAY * block_space cfg)
    (h1 : cfg.DECAY * block_space cfg ≤ 65536) (n : Nat) (hn1 : 1 ≤ n) (hn : n < cfg.DECAY) :
    (initState cfg).g_block_address n = block_space cfg * n - 1 := by
  show InitBlockAddress cfg.DECAY (block_space cfg % 65536) (fun _ => 0) n = _
  have hb : 1 ≤ block_space cfg := Nat.pos_of_mul_pos_left h0
  have hmul : block_space cfg * n < cfg.DECAY * block_space cfg := by
    rw [Nat.mul_comm]; exact Nat.mul_lt_mul_of_pos_right hn hb
  have h2 : block_space cfg * 2 ≤ cfg.DECAY * block_space cfg := by
    rw [Nat.mul_comm]; exact Nat.mul_le_mul_right _ (by omega)
  have hbs : block_space cfg % 65536 = block_space cfg := Nat.mod_eq_of_lt (by omega)
  rw [InitBlockAddress_apply, if_pos ⟨hn1, hn⟩, hbs, initAddress_eq _ _ hb hn1 (by omega)]

/-- A slot with index at least `k` has not been written in the first `k` sample periods. -/
theorem run_g_data_unwritten (cfg : Config) (x : Nat → Nat)
    (h0 : 0 < cfg.DECAY * block_space cfg) (h1 : cfg.DECAY * block_space cfg ≤ 65536)
    (k : Nat) :
    ∀ i, k ≤ i → (run cfg x k).g_data i = 0 := by
  induction k with
  | zero => intro i _; rfl
  | succ k ih =>
    intro i hi
    have hle : k % (cfg.DECAY * block_space cfg) ≤ k := Nat.mod_le _ _
    rw [run_succ, period_g_data, run_live cfg x h0 h1, store_other _ _ _ _ (by omega)]
    exact ih i (by omega)

/-- Going back `j` ticks, with `0 < j < C`, leads to another slot of the cycle. -/
theorem sub_mod_ne (C k j : Nat) (hj0 : 0 < j) (hjC : j < C) (hjk : j ≤ k) :
    (k - j) % C ≠ k % C := by
  intro h
  have hdvd : C ∣ k - (k - j) := (Nat.modEq_iff_dvd' (Nat.sub_le k j)).1 h
  have e : k - (k - j) = j := by omega
  rw [e] at hdvd
  have := Nat.le_of_dvd hj0 hdvd
  omega

/-- The sample written `j` ticks before the last one, `j < C`, is still in its slot. -/
theorem run_g_data_recent (cfg : Config) (x : Nat → Nat)
    (h0 : 0 < cfg.DECAY * block_space cfg) (h1 : cfg.DECAY * block_space cfg ≤ 65536)
    (k : Nat) :
    ∀ j, j < cfg.DECAY * block_space cfg → j < k →
      (run cfg x k).g_data ((k - 1 - j) % (cfg.DECAY * block_space cfg))
        = Convert32to16 (x (k - 1 - j)) := by
  induction k with
  | zero => intro j _ hj; omega
  | succ k ih =>
    intro j hjC hjk
    rw [run_succ, period_g_data, run_live cfg x h0 h1]
    by_cases hj0 : j = 0
    · subst hj0
      rw [show k + 1 - 1 - 0 = k by omega, store_same]
    · have e : k + 1 - 1 - j = k - j := by omega
      have e' : k - j = k - 1 - (j - 1) := by omega
      rw [e, store_other _ _ _ _ (sub_mod_ne _ k j (by omega) hjC (by omega)), e']
      exact ih (j - 1) (by omega) (by omega)

/-- After at least `C` sample periods every slot `i < C` holds the sample of the last
tick that wrote it. -/
theorem run_g_data_full (cfg : Config) (x : Nat → Nat)
    (h0 : 0 < cfg.DECAY * block_space cfg) (h1 : cfg.DECAY * block_space cfg ≤ 65536)
    (k : Nat) (hk : cfg.DECAY * block_space cfg ≤ k) (i : Nat)
    (hi : i < cfg.DECAY * block_space cfg) :
    (run cfg x k).g_data i
      = Convert32to16 (x (k - 1 - (k - 1 - i) % (cfg.DECAY * block_space cfg))) := by
  have hj : (k - 1 - i) % (cfg.DECAY * block_space cfg) < cfg.DECAY * block_space cfg :=
    Nat.mod_lt _ h0
  have hle : (k - 1 - i) % (cfg.DECAY * block_space cfg) ≤ k - 1 - i := Nat.mod_le _ _
  have hdm := Nat.div_add_mod (k - 1 - i) (cfg.DECAY * block_space cfg)
  have hpos : k - 1 - (k - 1 - i) % (cfg.DECAY * block_space cfg)
      = i + cfg.DECAY * block_space cfg * ((k - 1 - i) / (cfg.DECAY * block_space cfg)) := by
    omega
  have hslot : (k - 1 - (k - 1 - i) % (cfg.DECAY * block_space cfg))
      % (cfg.DECAY * block_space cfg) = i := by
    rw [hpos, Nat.add_mul_mod_self_left, Nat.mod_eq_of_lt hi]
  have := run_g_data_recent cfg x h0 h1 k _ hj (by omega)
  rw [hslot] at this
  exact this

/-- Exact tap delay. In a configuration with `block_space ≥ 2` and `C ≤ 65536`, echo tap `n`
reads at tick `t` the sample of tick `t - ((DECAY - n) * block_space + 1)`, and the initial
`0` when `t` is smaller than that delay. -/
theorem tap_reads (cfg : Config) (x : Nat → Nat) (hB : 2 ≤ block_space cfg)
    (h1 : cfg.DECAY * block_space cfg ≤ 65536) (t n : Nat) (hn1 : 1 ≤ n) (hn : n < cfg.DECAY) :
    tickData (tickState cfg x t) ((tickState cfg x t).g_block_address n)
      = if (cfg.DECAY - n) * block_space cfg + 1 ≤ t
        then Convert32to16 (x (t - ((cfg.DECAY - n) * block_space cfg + 1))) else 0 := by
  have h0 : 0 < cfg.DECAY * block_space cfg := Nat.mul_pos (by omega) (by omega)
  have hsum : block_space cfg * n + (cfg.DECAY - n) * block_space cfg
      = cfg.DECAY * block_space cfg := by
    rw [Nat.mul_comm (block_space cfg) n, ← Nat.add_mul]
    congr 1
    omega
  have hP : 2 ≤ block_space cfg * n :=
    Nat.le_trans hB (Nat.le_mul_of_pos_right _ (by omega))
  rw [tickData_tickState, tickState_g_block_address, run_g_block_address cfg x h0 h1 t n hn,
    initState_tap cfg h0 h1 n hn1 hn]
  by_cases hd : (cfg.DECAY - n) * block_space cfg + 1 ≤ t
  · rw [if_pos hd]
    have hpos : block_space cfg * n - 1 + t
        = (t - ((cfg.DECAY - n) * block_space cfg + 1)) + cfg.DECAY * block_space cfg := by
      omega
    rw [hpos, Nat.add_mod_right]
    have := run_g_data_recent cfg x h0 h1 (t + 1) ((cfg.DECAY - n) * block_space cfg + 1)
      (by omega) (by omega)
    rw [show t + 1 - 1 - ((cfg.DECAY - n) * block_space cfg + 1)
      = t - ((cfg.DECAY - n) * block_space cfg + 1) by omega] at this
    exact this
  · rw [if_neg hd, Nat.mod_eq_of_lt (by omega)]
    exact run_g_data_unwritten cfg x h0 h1 (t + 1) _ (by omega)

theorem initState_g_block_address (cfg : Config) :
    (initState cfg).g_block_address
      = InitBlockAddress cfg.DECAY (block_space cfg % 65536) (fun _ => 0) := rfl

/-- A larger tap index means a shorter delay. -/
theorem delay_lt_of_lt (D B m n : Nat) (hB : 0 < B) (hmn : m < n) (hn : n < D) :
    (D - n) * B + 1 < (D - m) * B + 1 := by
  have : (D - n) * B < (D - m) * B := Nat.mul_lt_mul_of_pos_right (by omega) hB
  omega

/-- Advancing by one is injective on the positions of the cycle. -/
theorem succ_mod_inj (C x y : Nat) (hx : x < C) (hy : y < C)
    (h : (x + 1) % C = (y + 1) % C) : x = y := by
  by_cases hx1 : x + 1 = C
  · by_cases hy1 : y + 1 = C
    · omega
    · rw [hx1, Nat.mod_self, Nat.mod_eq_of_lt (by omega)] at h
      omega
  · by_cases hy1 : y + 1 = C
    · rw [hy1, Nat.mod_self, Nat.mod_eq_of_lt (by omega)] at h
      omega
    · rw [Nat.mod_eq_of_lt (by omega), Nat.mod_eq_of_lt (by omega)] at h
      omega

/-- The initial tap positions of a configuration with `block_space ≥ 2` are pairwise
distinct. -/
theorem initState_taps_injective (cfg : Config) (hB : 2 ≤ block_space cfg)
    (h0 : 0 < cfg.DECAY * block_space cfg) (h1 : cfg.DECAY * block_space cfg ≤ 65536)
    (m n : Nat) (hm : m < cfg.DECAY) (hn : n < cfg.DECAY)
    (h : (initState cfg).g_block_address m = (initState cfg).g_block_address n) : m = n := by
  have key : ∀ k, 1 ≤ k → k < cfg.DECAY →
      (initState cfg).g_block_address k = block_space cfg * k - 1 ∧ 2 ≤ block_space cfg * k :=
    fun k hk1 hk => ⟨initState_tap cfg h0 h1 k hk1 hk,
      Nat.le_trans hB (Nat.le_mul_of_pos_right _ (by omega))⟩
  by_cases hm0 : m = 0
  · by_cases hn0 : n = 0
    · omega
    · subst hm0
      obtain ⟨e, hge⟩ := key n (by omega) hn
      rw [initState_live, e] at h
      omega
  · by_cases hn0 : n = 0
    · subst hn0
      obtain ⟨e, hge⟩ := key m (by omega) hm
      rw [initState_live, e] at h
      omega
    · obtain ⟨em, hgm⟩ := key m (by omega) hm
      obtain ⟨en, hgn⟩ := key n (by omega) hn
      rw [em, en] at h
      have hmul : block_space cfg * m = block_space cfg * n := by omega
      exact Nat.eq_of_mul_eq_mul_left (by omega) hmul

/-- One event keeps the tap positions in range and pairwise distinct. -/
theorem step_taps_injective (cfg : Config) (h0 : 0 < cfg.DECAY * block_space cfg)
    (h1 : cfg.DECAY * block_space cfg ≤ 65536) (s : State) (e : Event)
    (hr : ∀ n, n < cfg.DECAY → s.g_block_address n < cfg.DECAY * block_space cfg)
    (hi : ∀ m n, m < cfg.DECAY → n < cfg.DECAY →
      s.g_block_address m = s.g_block_address n → m = n) :
    (∀ n, n < cfg.DECAY → (step cfg s e).g_block_address n < cfg.DECAY * block_space cfg) ∧
    (∀ m n, m < cfg.DECAY → n < cfg.DECAY →
      (step cfg s e).g_block_address m = (step cfg s e).g_block_address n → m = n) := by
  cases e with
  | adc raw => exact ⟨hr, hi⟩
  | loop =>
    show (∀ n, n < cfg.DECAY → (mainLoop cfg s).g_block_address n < _) ∧
      (∀ m n, m < cfg.DECAY → n < cfg.DECAY →
        (mainLoop cfg s).g_block_address m = (mainLoop cfg s).g_block_address n → m = n)
    by_cases hf : s.g_sample_complete = 1
    · rw [mainLoop_ready cfg s hf]
      have hadv : ∀ n, n < cfg.DECAY → (tick cfg s).g_block_address n
          = (s.g_block_address n + 1) % (cfg.DECAY * block_space cfg) := by
        intro n hn
        show IncBlockAddress cfg.DECAY (top_mem_address cfg) s.g_block_address n = _
        rw [IncBlockAddress_apply, if_pos hn, top_mem_address_eq cfg h0 h1,
          incAddress_eq _ _ h0 h1 (hr n hn)]
      constructor
      · intro n hn
        rw [hadv n hn]
        exact Nat.mod_lt _ h0
      · intro m n hm hn h
        rw [hadv m hm, hadv n hn] at h
        exact hi m n hm hn (succ_mod_inj _ _ _ (hr m hm) (hr n hn) h)
    · rw [mainLoop_idle cfg s hf]
      exact ⟨hr, hi⟩

theorem foldl_step_taps_injective (cfg : Config) (h0 : 0 < cfg.DECAY * block_space cfg)
    (h1 : cfg.DECAY * block_space cfg ≤ 65536) (es : List Event) :
    ∀ s : State,
      (∀ n, n < cfg.DECAY → s.g_block_address n < cfg.DECAY * block_space cfg) →
      (∀ m n, m < cfg.DECAY → n < cfg.DECAY →
        s.g_block_address m = s.g_block_address n → m = n) →
      ∀ m n, m < cfg.DECAY → n < cfg.DECAY →
        (es.foldl (step cfg) s).g_block_address m = (es.foldl (step cfg) s).g_block_address n →
        m = n := by
  induction es with
  | nil => intro s _ hi; exact hi
  | cons e es ih =>
    intro s hr hi
    rw [List.foldl_cons]
    obtain ⟨hr', hi'⟩ := step_taps_injective cfg h0 h1 s e hr hi
    exact ih _ hr' hi'

/-- In every reachable state of a configuration with `block_space ≥ 2` and `C ≤ 65536`
the tap positions are pairwise distinct. -/
theorem exec_taps_injective (cfg : Config) (hB : 2 ≤ block_space cfg)
    (h0 : 0 < cfg.DECAY * block_space cfg) (h1 : cfg.DECAY * block_space cfg ≤ 65536)
    (es : List Event) (m n : Nat) (hm : m < cfg.DECAY) (hn : n < cfg.DECAY)
    (h : (exec cfg es).g_block_address m = (exec cfg es).g_block_address n) : m = n :=
  foldl_step_taps_injective cfg h0 h1 es (initState cfg)
    (fun k hk => by have := initState_address_le cfg h0 h1 k hk; omega)
    (initState_taps_injective cfg hB h0 h1) m n hm hn h

/-- When every echo tap reads `4095`, the unbounded echo sum is `saturatedSum`. -/
theorem echoSum_saturated (DECAY : Nat) (g_data g_block_address : Nat → Nat)
    (h : ∀ n, 1 ≤ n → n < DECAY → g_data (g_block_address n) = 4095) :
    echoSum DECAY g_data g_block_address = saturatedSum DECAY := by
  unfold echoSum saturatedSum
  congr 1
  apply List.map_congr_left
  intro n hn
  rw [List.mem_range'_1] at hn
  rw [h n hn.1 (by omega)]

/-- The saturated echo sums of the tap counts of the normalization table, and their
normalized values. -/
theorem saturatedSum_table (DECAY : Nat) (h4 : 4 ≤ DECAY) (h10 : DECAY ≤ 10) :
    saturatedSum DECAY < 65536 ∧
    (decimalMultiplier DECAY).1 * saturatedSum DECAY / (decimalMultiplier DECAY).2 ≤ 4095 := by
  interval_cases DECAY <;> decide

/-- A tick in which the live slot and every echo tap hold `4095`, for a tap count of the
normalization table and `MIX ≤ 10`. -/
theorem saturated_tick (cfg : Config) (s : State) (h4 : 4 ≤ cfg.DECAY) (h10 : cfg.DECAY ≤ 10)
    (hM : cfg.MIX ≤ 10)
    (h : ∀ n, n < cfg.DECAY → tickData s (s.g_block_address n) = 4095) :
    delaySum cfg.DECAY (tickData s) s.g_block_address = saturatedSum cfg.DECAY ∧
    tickDelayOutput cfg s ≤ 4095 ∧ tickMixOutput cfg s ≤ 4095 := by
  obtain ⟨hlt, hnorm⟩ := saturatedSum_table cfg.DECAY h4 h10
  have hsum : delaySum cfg.DECAY (tickData s) s.g_block_address = saturatedSum cfg.DECAY := by
    rw [delaySum_eq, echoSum_saturated _ _ _ (fun n _ hn => h n hn), Nat.mod_eq_of_lt hlt]
  have hecho : tickDelayOutput cfg s ≤ 4095 := by
    unfold tickDelayOutput GetDelayOutput
    have hex : ∃ m e, normalization cfg.DECAY = some (m, e) := by
      generalize cfg.DECAY = D at h4 h10
      interval_cases D <;> exact ⟨_, _, rfl⟩
    obtain ⟨m, e, hn⟩ := hex
    simp only [hn]
    rw [hsum, mulDouble_table cfg.DECAY _ m e h4 h10 hlt hn]
    exact hnorm
  refine ⟨hsum, hecho, ?_⟩
  have hlive := h 0 (by omega)
  rw [tickMixOutput_eq cfg s hM 4095 _ hlive rfl (by decide) (by omega)]
  have h1 : (10 - cfg.MIX) * tickDelayOutput cfg s ≤ (10 - cfg.MIX) * 4095 :=
    Nat.mul_le_mul_left _ hecho
  omega

/-- After at least `C` sample periods of which the last `C` had the input `4095`, the
slot of every tap holds `4095` in the next tick. -/
theorem saturated_run (cfg : Config) (x : Nat → Nat)
    (h0 : 0 < cfg.DECAY * block_space cfg) (h1 : cfg.DECAY * block_space cfg ≤ 65536)
    (t : Nat) (ht : cfg.DECAY * block_space cfg ≤ t)
    (hx : ∀ t', t' ≤ t → t < t' + cfg.DECAY * block_space cfg → x t' = 4095) :
    ∀ n, n < cfg.DECAY →
      tickData (tickState cfg x t) ((tickState cfg x t).g_block_address n) = 4095 := by
  intro n hn
  rw [tickData_tickState, tickState_g_block_address, run_g_block_address cfg x h0 h1 t n hn,
    run_g_data_full cfg x h0 h1 (t + 1) (by omega) _ (Nat.mod_lt _ h0)]
  have hm : (t + 1 - 1 - ((initState cfg).g_block_address n + t) % (cfg.DECAY * block_space cfg))
      % (cfg.DECAY * block_space cfg) < cfg.DECAY * block_space cfg := Nat.mod_lt _ h0
  rw [hx _ (by omega) (by omega), Convert32to16_eq]

/-- With `DECAY ≤ 6` and `1 ≤ C ≤ 16000` every array access of a tick is inside the
declared storage, in every state the program reaches. -/
theorem exec_tickInBounds (cfg : Config) (es : List Event) (hD : cfg.DECAY ≤ 6)
    (h0 : 0 < cfg.DECAY * block_space cfg) (h1 : cfg.DECAY * block_space cfg ≤ 16000) :
    tickInBounds cfg (exec cfg es) := by
  have hpos : 0 < cfg.DECAY := Nat.pos_of_mul_pos_right h0
  have haddr : ∀ n, n < cfg.DECAY → (exec cfg es).g_block_address n < g_data_len := by
    intro n hn
    have := foldl_step_address_le cfg _ (top_mem_address_eq cfg h0 (by omega)) es
      (initState cfg) (initState_address_le cfg h0 (by omega)) n hn
    show (exec cfg es).g_block_address n < 16000
    have : (exec cfg es).g_block_address n ≤ cfg.DECAY * block_space cfg - 1 := this
    omega
  constructor
  · intro n hn
    show n < 6
    simp only [tickTapIndices, List.mem_append, List.mem_singleton, List.mem_range'_1,
      List.mem_range] at hn
    omega
  · intro p hp
    simp only [tickDataIndices, List.mem_append, List.mem_singleton, List.mem_map,
      List.mem_range'_1] at hp
    rcases hp with (hp | ⟨n, hn, rfl⟩) | hp
    · rw [hp]; exact haddr 0 hpos
    · exact haddr n (by omega)
    · rw [hp]; exact haddr 0 hpos

/-- The accesses of `GetDelayOutput` are in bounds only for `DECAY ≤ 6`, and then every
echo tap points into `g_data`. -/
theorem delayInBounds_iff (DECAY : Nat) (a : Nat → Nat) :
    delayInBounds DECAY a ↔
      DECAY ≤ 6 ∧ ∀ n, 1 ≤ n → n < DECAY → a n < g_data_len := by
  unfold delayInBounds delayTapIndices delayDataIndices g_block_address_len
  simp only [List.mem_range'_1, List.mem_map]
  constructor
  · rintro ⟨h1, h2⟩
    refine ⟨?_, fun n hn1 hn => h2 _ ⟨n, ⟨hn1, by omega⟩, rfl⟩⟩
    by_contra hc
    have := h1 6 ⟨by decide, by omega⟩
    omega
  · rintro ⟨h1, h2⟩
    refine ⟨fun n hn => by omega, ?_⟩
    rintro p ⟨n, hn, rfl⟩
    exact h2 n hn.1 (by omega)

/-- With seven or more taps the loop of `GetDelayOutput` reads `g_block_address[6]`. -/
theorem not_delayInBounds (DECAY : Nat) (a : Nat → Nat) (h : 7 ≤ DECAY) :
    ¬ delayInBounds DECAY a := by
  rw [delayInBounds_iff]
  omega

/-- With seven or more taps a tick accesses `g_block_address[6]`. -/
theorem not_tickInBounds (cfg : Config) (s : State) (h : 7 ≤ cfg.DECAY) :
    ¬ tickInBounds cfg s := by
  intro hb
  have h6 : 6 ∈ tickTapIndices cfg := by
    simp only [tickTapIndices, List.mem_append, List.mem_singleton, List.mem_range'_1,
      List.mem_range]
    omega
  have := hb.1 6 h6
  exact absurd this (by decide)

/-- The accesses of a tick that is in bounds: `DECAY ≤ 6` and the live position and every
echo tap point into `g_data`. -/
theorem tickInBounds_taps (cfg : Config) (s : State) (hb : tickInBounds cfg s) :
    cfg.DECAY ≤ 6 ∧ s.g_block_address 0 < g_data_len ∧
    ∀ n, 1 ≤ n → n < cfg.DECAY → s.g_block_address n < g_data_len := by
  refine ⟨?_, ?_, ?_⟩
  · by_contra hc
    exact not_tickInBounds cfg s (by omega) hb
  · apply hb.2
    simp [tickDataIndices]
  · intro n hn1 hn
    apply hb.2
    simp only [tickDataIndices, List.mem_append, List.mem_singleton, List.mem_map,
      List.mem_range'_1]
    exact Or.inl (Or.inr ⟨n, ⟨hn1, by omega⟩, rfl⟩)

/-- The echo sum depends on the buffer only through the slots the taps point to. -/
theorem echoSum_congr (DECAY : Nat) (g g' a : Nat → Nat)
    (h : ∀ n, 1 ≤ n → n < DECAY → g (a n) = g' (a n)) :
    echoSum DECAY g a = echoSum DECAY g' a := by
  unfold echoSum
  congr 1
  apply List.map_congr_left
  intro n hn
  rw [List.mem_range'_1] at hn
  rw [h n hn.1 (by omega)]

/-- The bound of `echoSum_bound`, from the samples the taps read alone. -/
theorem echoSum_bound_taps (DECAY : Nat) (g a : Nat → Nat)
    (h : ∀ n, 1 ≤ n → n < DECAY → g (a n) ≤ 4095) :
    2 * echoSum DECAY g a ≤ 4095 * (DECAY - 1) := by
  rw [echoSum_congr DECAY g (fun i => min (g i) 4095) a
    (fun n hn1 hn => (Nat.min_eq_left (h n hn1 hn)).symm)]
  exact echoSum_bound DECAY _ a (fun i => Nat.min_le_right _ _)

/-- `GetDelayOutput` by the unbounded echo sum, when that sum fits in 16 bits. -/
theorem GetDelayOutput_of_echoSum (DECAY : Nat) (g a : Nat → Nat)
    (hS : echoSum DECAY g a < 65536) :
    (4 ≤ DECAY → DECAY ≤ 10 → GetDelayOutput DECAY g a
      = (decimalMultiplier DECAY).1 * echoSum DECAY g a / (decimalMultiplier DECAY).2) ∧
    (DECAY < 4 → GetDelayOutput DECAY g a = echoSum DECAY g a) := by
  constructor
  · intro h4 h10
    unfold GetDelayOutput
    rw [delaySum_eq, Nat.mod_eq_of_lt hS]
    have hex : ∃ m e, normalization DECAY = some (m, e) := by
      interval_cases DECAY <;> exact ⟨_, _, rfl⟩
    obtain ⟨m, e, hn⟩ := hex
    rw [hn]
    exact mulDouble_table DECAY _ m e h4 h10 hS hn
  · intro hD
    unfold GetDelayOutput
    have hn : normalization DECAY = none := by
      unfold normalization
      split <;> first | rfl | omega
    rw [hn, delaySum_eq, Nat.mod_eq_of_lt hS]

/-- The samples the echo taps read are 12-bit when the accesses are in bounds and the
declared slots of `g_data` hold 12-bit samples. -/
theorem tap_samples_le (DECAY : Nat) (g a : Nat → Nat)
    (h12 : ∀ i, i < g_data_len → g i ≤ 4095) (hb : delayInBounds DECAY a) :
    ∀ n, 1 ≤ n → n < DECAY → g (a n) ≤ 4095 :=
  fun n hn1 hn => h12 _ (((delayInBounds_iff DECAY a).1 hb).2 n hn1 hn)

/-- With `DECAY ≤ 6` and `1 ≤ C ≤ 16000` every array access of every tick of a run is
inside the declared storage. -/
theorem tickState_tickInBounds (cfg : Config) (x : Nat → Nat) (t : Nat) (hD : cfg.DECAY ≤ 6)
    (h0 : 0 < cfg.DECAY * block_space cfg) (h1 : cfg.DECAY * block_space cfg ≤ 16000) :
    tickInBounds cfg (tickState cfg x t) := by
  have hpos : 0 < cfg.DECAY := Nat.pos_of_mul_pos_right h0
  have haddr : ∀ n, n < cfg.DECAY → (tickState cfg x t).g_block_address n < g_data_len := by
    intro n hn
    rw [tickState_g_block_address, run_g_block_address cfg x h0 (by omega) t n hn]
    have := Nat.mod_lt ((initState cfg).g_block_address n + t) h0
    show _ < 16000
    omega
  constructor
  · intro n hn
    show n < 6
    simp only [tickTapIndices, List.mem_append, List.mem_singleton, List.mem_range'_1,
      List.mem_range] at hn
    omega
  · intro p hp
    simp only [tickDataIndices, List.mem_append, List.mem_singleton, List.mem_map,
      List.mem_range'_1] at hp
    rcases hp with (hp | ⟨n, hn, rfl⟩) | hp
    · rw [hp]; exact haddr 0 hpos
    · exact haddr n (by omega)
    · rw [hp]; exact haddr 0 hpos

/-- In a tick that is in bounds, with every declared slot of `g_data` and the new sample
at `4095`, the live slot and every echo tap hold `4095`. -/
theorem saturated_taps (cfg : Config) (s : State) (hb : tickInBounds cfg s)
    (hd : ∀ i, i < g_data_len → s.g_data i = 4095) (hi : s.g_input_buffer = 4095) :
    ∀ n, n < cfg.DECAY → tickData s (s.g_block_address n) = 4095 := by
  obtain ⟨_, hlive, htaps⟩ := tickInBounds_taps cfg s hb
  intro n hn
  have hlt : s.g_block_address n < g_data_len := by
    by_cases hn0 : n = 0
    · subst hn0; exact hlive
    · exact htaps n (by omega) hn
  unfold tickData
  rw [store_apply, hi, Convert32to16_eq]
  split
  · rfl
  · exact hd _ hlt

/-- The unbounded sum of the first `j` terms of the echo, `j < DECAY`, from the samples
the taps read alone. -/
theorem partial_sum_le_taps (DECAY : Nat) (f : Nat → Nat)
    (hf : ∀ n, 1 ≤ n → n < DECAY → f n ≤ 4095) (j : Nat) (hj : j < DECAY) :
    ((List.range' 1 j).map fun n => f n * n / DECAY).sum ≤ 4095 * j := by
  have e : ((List.range' 1 j).map fun n => f n * n / DECAY)
      = (List.range' 1 j).map fun n => min (f n) 4095 * n / DECAY := by
    apply List.map_congr_left
    intro n hn
    rw [List.mem_range'_1] at hn
    rw [Nat.min_eq_left (hf n hn.1 (by omega))]
  rw [e]
  exact partial_sum_le DECAY (fun n => min (f n) 4095) (fun n => Nat.min_le_right _ _) j hj

/-! ## Claims -/

/-- Claim C4. For a valid configuration (`tapSpacing ≥ 1` and `DECAY * tapSpacing ≤ 65536`;
the bound `DECAY ≥ 2` of the claim is not needed), `InitBlockAddress(tapSpacing)` leaves
position `0` equal to `0`, position `n` equal to `tapSpacing * n - 1` for `1 ≤ n < DECAY`,
and every position of the tap set in `[0, DECAY * tapSpacing - 1]`. -/
theorem InitBlockAddress_positions (tapSpacing DECAY : Nat) (a : Nat → Nat)
    (hs : 1 ≤ tapSpacing) (hC : DECAY * tapSpacing ≤ 65536) :
    InitBlockAddress DECAY tapSpacing a 0 = 0 ∧
    (∀ n, 1 ≤ n → n < DECAY → InitBlockAddress DECAY tapSpacing a n = tapSpacing * n - 1) ∧
    (∀ n, n < DECAY → InitBlockAddress DECAY tapSpacing a n ≤ DECAY * tapSpacing - 1) := by
  have key : ∀ n, 1 ≤ n → n < DECAY →
      InitBlockAddress DECAY tapSpacing a n = tapSpacing * n - 1 ∧
        tapSpacing * n < DECAY * tapSpacing := by
    intro n h1 hn
    have hmul : tapSpacing * n < DECAY * tapSpacing := by
      rw [Nat.mul_comm]; exact Nat.mul_lt_mul_of_pos_right hn hs
    rw [InitBlockAddress_apply, if_pos ⟨h1, hn⟩, initAddress_eq _ _ hs h1 (by omega)]
    exact ⟨rfl, hmul⟩
  have h0 : InitBlockAddress DECAY tapSpacing a 0 = 0 := by
    rw [InitBlockAddress_apply, if_neg (by omega), if_pos rfl]
  refine ⟨h0, fun n h1 hn => (key n h1 hn).1, ?_⟩
  intro n hn
  by_cases hz : n = 0
  · subst hz; rw [h0]; exact Nat.zero_le _
  · obtain ⟨he, hlt⟩ := key n (by omega) hn
    rw [he]; omega

/-- The valid configuration `tapSpacing = 400`, `DECAY = 3` of claim C4. -/
theorem InitBlockAddress_positions_witness :
    (1 ≤ 400 ∧ 3 * 400 ≤ 65536) ∧
    InitBlockAddress 3 400 (fun _ => 0) 0 = 0 ∧
    (∀ n, 1 ≤ n → n < 3 → InitBlockAddress 3 400 (fun _ => 0) n = 400 * n - 1) ∧
    (∀ n, n < 3 → InitBlockAddress 3 400 (fun _ => 0) n ≤ 3 * 400 - 1) :=
  ⟨by decide, InitBlockAddress_positions 400 3 (fun _ => 0) (by decide) (by decide)⟩

/-- Claim C5. For every tick count `k` and every tap set whose positions all lie in
`[0, C - 1]` (`C - 1` being a `uint16_t` value), after `k` calls of
`IncBlockAddress(C - 1)` each position equals `(initial + k) mod C`. -/
theorem IncBlockAddress_iterate (DECAY C : Nat) (hC : 0 < C) (hC' : C ≤ 65536) (k : Nat)
    (a : Nat → Nat) (ha : ∀ n, n < DECAY → a n ≤ C - 1) :
    ∀ n, n < DECAY → (IncBlockAddress DECAY (C - 1))^[k] a n = (a n + k) % C :=
  iterate_IncBlockAddress DECAY C hC hC' k a (fun n hn => by have := ha n hn; omega)

/-- The tap set `0, 399, 799` of the reference configuration after 1000 ticks. -/
theorem IncBlockAddress_iterate_witness :
    (0 < 1200 ∧ 1200 ≤ 65536 ∧ ∀ n, n < 3 → (400 * n - 1) ≤ 1200 - 1) ∧
    ∀ n, n < 3 → (IncBlockAddress 3 (1200 - 1))^[1000] (fun n => 400 * n - 1) n
      = ((400 * n - 1) + 1000) % 1200 :=
  ⟨⟨by decide, by decide, fun n hn => by omega⟩,
   IncBlockAddress_iterate 3 1200 (by decide) (by decide) 1000 (fun n => 400 * n - 1)
    (fun n hn => by show 400 * n - 1 ≤ 1200 - 1; omega)⟩

/-- Claim C6. `IncBlockAddress(C - 1)` keeps every position of the tap set in `[0, C - 1]`;
and when `main` runs with `C = DECAY * block_space` in `1 .. 65536`, every position of the
tap set is in `[0, C - 1]` in every state the program reaches from `InitBlockAddress`,
whatever the interleaving of ADC interrupts and loop iterations. -/
theorem tap_positions_in_range :
    (∀ (DECAY C : Nat) (a : Nat → Nat), (∀ n, n < DECAY → a n ≤ C - 1) →
      ∀ n, n < DECAY → IncBlockAddress DECAY (C - 1) a n ≤ C - 1) ∧
    (∀ (cfg : Config) (es : List Event), 0 < cfg.DECAY * block_space cfg →
      cfg.DECAY * block_space cfg ≤ 65536 →
      ∀ n, n < cfg.DECAY →
        (exec cfg es).g_block_address n ≤ cfg.DECAY * block_space cfg - 1) := by
  constructor
  · intro DECAY C a _ n hn
    rw [IncBlockAddress_apply, if_pos hn]
    exact incAddress_le _ _
  · intro cfg es h0 h1
    exact foldl_step_address_le cfg _ (top_mem_address_eq cfg h0 h1) es (initState cfg)
      (initState_address_le cfg h0 h1)

/-- The reference configuration after two sample periods, for claim C6. -/
theorem tap_positions_in_range_witness :
    (∀ n, n < 3 → (fun n => 400 * n - 1) n ≤ 1200 - 1) ∧
    (∀ n, n < 3 → IncBlockAddress 3 (1200 - 1) (fun n => 400 * n - 1) n ≤ 1200 - 1) ∧
    (0 < reference.DECAY * block_space reference ∧
      reference.DECAY * block_space reference ≤ 65536) ∧
    (∀ n, n < reference.DECAY →
      (exec reference [.adc 1000, .loop, .adc 0, .loop]).g_block_address n
        ≤ reference.DECAY * block_space reference - 1) :=
  ⟨fun n hn => by show 400 * n - 1 ≤ 1200 - 1; omega,
   tap_positions_in_range.1 3 1200 (fun n => 400 * n - 1)
     (fun n hn => by show 400 * n - 1 ≤ 1200 - 1; omega),
   by decide,
   tap_positions_in_range.2 reference [.adc 1000, .loop, .adc 0, .loop] (by decide) (by decide)⟩

/-- Claim C1. With `DECAY = 3` `GetDelayOutput` applies no normalization multiplier: for
every buffer content and every tap set its result is `s1 * 1 / 3 + s2 * 2 / 3` as a 16-bit
value, `s1` and `s2` being the buffer values at tap positions 1 and 2. -/
theorem GetDelayOutput_three (g_data g_block_address : Nat → Nat) :
    GetDelayOutput 3 g_data g_block_address
      = (g_data (g_block_address 1) * 1 / 3 + g_data (g_block_address 2) * 2 / 3) % 65536 :=
  GetDelayOutput_default_three g_data g_block_address

/-- Claim C3. `GetMixOutput` blends as `(mix * live) / 10 + ((10 - mix) * echo) / 10` with
integer division at each term (`mix` in `[0, 10]`, `live` and `echo` 16-bit values); with
`mix = 10` the result is exactly the live sample and with `mix = 0` exactly the echo. -/
theorem GetMixOutput_blend (g_data g_block_address : Nat → Nat) (echo : Nat)
    (hlive : g_data (g_block_address 0) < 65536) (hecho : echo < 65536) :
    (∀ mix, mix ≤ 10 → GetMixOutput mix g_data g_block_address echo
      = (mix * g_data (g_block_address 0)) / 10 + ((10 - mix) * echo) / 10) ∧
    GetMixOutput 10 g_data g_block_address echo = g_data (g_block_address 0) ∧
    GetMixOutput 0 g_data g_block_address echo = echo := by
  have key := GetMixOutput_eq g_data g_block_address echo hlive hecho
  refine ⟨key, ?_, ?_⟩
  · rw [key 10 (by decide)]; omega
  · rw [key 0 (by decide)]; omega

/-- A live sample `4095` and an echo `1234`, for claim C3. -/
theorem GetMixOutput_blend_witness :
    ((fun _ => 4095) ((fun _ => 0) 0) < 65536 ∧ 1234 < 65536) ∧
    (∀ mix, mix ≤ 10 → GetMixOutput mix (fun _ => 4095) (fun _ => 0) 1234
      = (mix * (fun _ => 4095) ((fun _ => 0) 0)) / 10 + ((10 - mix) * 1234) / 10) ∧
    GetMixOutput 10 (fun _ => 4095) (fun _ => 0) 1234 = (fun _ => 4095) ((fun _ => 0) 0) ∧
    GetMixOutput 0 (fun _ => 4095) (fun _ => 0) 1234 = 1234 :=
  ⟨by decide, GetMixOutput_blend (fun _ => 4095) (fun _ => 0) 1234 (by decide) (by decide)⟩

/-- Claim C9. For every sample value `v` in `0 .. 0x0FFF` the word `SendSampleToDAC`
transmits is `0x4000 + v`: bit 14 is set, bits 15, 13 and 12 are clear and the low 12 bits
are `v`; in particular `0x0ABC` is dispatched as `0x4ABC`. -/
theorem SendSampleToDAC_framing (v : Nat) (hv : v ≤ 0x0FFF) :
    SendSampleToDAC v = 0x4000 + v ∧
    (SendSampleToDAC v).testBit 14 = true ∧
    (SendSampleToDAC v).testBit 15 = false ∧
    (SendSampleToDAC v).testBit 13 = false ∧
    (SendSampleToDAC v).testBit 12 = false ∧
    SendSampleToDAC v &&& 0x0FFF = v ∧
    SendSampleToDAC 0x0ABC = 0x4ABC := by
  have h12 : (0x0FFF : Nat) = 2 ^ 12 - 1 := by norm_num
  rw [SendSampleToDAC_eq v hv, SendSampleToDAC_eq 0x0ABC (by decide), h12,
    Nat.and_pow_two_sub_one_eq_mod]
  simp only [Nat.testBit_to_div_mod, decide_eq_true_eq, decide_eq_false_iff_not]
  refine ⟨trivial, ?_, ?_, ?_, ?_, ?_, by decide⟩ <;> omega

/-- The sample `0x0ABC` of claim C9. -/
theorem SendSampleToDAC_framing_witness :
    0x0ABC ≤ 0x0FFF ∧ SendSampleToDAC 0x0ABC = 0x4000 + 0x0ABC ∧
    (SendSampleToDAC 0x0ABC).testBit 14 = true ∧
    (SendSampleToDAC 0x0ABC).testBit 15 = false ∧
    (SendSampleToDAC 0x0ABC).testBit 13 = false ∧
    (SendSampleToDAC 0x0ABC).testBit 12 = false ∧
    SendSampleToDAC 0x0ABC &&& 0x0FFF = 0x0ABC ∧
    SendSampleToDAC 0x0ABC = 0x4ABC :=
  ⟨by decide, SendSampleToDAC_framing 0x0ABC (by decide)⟩

/-- Claim C7, as the code has it. The sample a tick stores into the buffer at the live
position is the raw value reduced to its low 16 bits, `raw mod 65536`; it is the raw value
itself, and in `0 .. 4095`, whenever the raw value is at most `4095`. -/
theorem stored_sample (cfg : Config) (s : State) (raw : Nat) :
    (period cfg raw s).g_data (s.g_block_address 0) = raw % 65536 ∧
    (raw ≤ 4095 → (period cfg raw s).g_data (s.g_block_address 0) = raw ∧
      (period cfg raw s).g_data (s.g_block_address 0) ≤ 4095) := by
  rw [period_g_data, store_same, Convert32to16_eq]
  refine ⟨rfl, fun h => ?_⟩
  rw [Nat.mod_eq_of_lt (by omega)]
  exact ⟨rfl, h⟩

/-- The raw value `4095` in the start state of the reference configuration. -/
theorem stored_sample_witness :
    (period reference 4095 (initState reference)).g_data
        ((initState reference).g_block_address 0) = 4095 % 65536 ∧
    (4095 ≤ 4095 → (period reference 4095 (initState reference)).g_data
        ((initState reference).g_block_address 0) = 4095 ∧
      (period reference 4095 (initState reference)).g_data
        ((initState reference).g_block_address 0) ≤ 4095) :=
  stored_sample reference (initState reference) 4095

/-- Claim C7 fails for the 32-bit raw value `4096`: the tick stores `4096`, not
`4096 mod 4096 = 0`, and the stored sample is outside `0 .. 4095`. -/
theorem stored_sample_not_masked :
    4096 < 2 ^ 32 ∧
    (period reference 4096 (initState reference)).g_data
        ((initState reference).g_block_address 0) = 4096 ∧
    (period reference 4096 (initState reference)).g_data
        ((initState reference).g_block_address 0) ≠ 4096 % 4096 ∧
    ¬ (period reference 4096 (initState reference)).g_data
        ((initState reference).g_block_address 0) ≤ 4095 := by
  have h : (period reference 4096 (initState reference)).g_data
      ((initState reference).g_block_address 0) = 4096 := by
    rw [period_g_data, store_same, Convert32to16_eq]
  rw [h]
  decide

/-- Claim C8. With `DECAY = 3` and `MIX` in `[0, 10]`: if every buffer slot and the newly
acquired sample are at most `4095`, then the echo sum of the tick is at most `4095`, the
blended value is at most `4095`, and the word handed to the output sink is that value
with only the control bit `0x4000` added. -/
theorem tick_output_twelve_bits (cfg : Config) (s : State) (hD : cfg.DECAY = 3)
    (hM : cfg.MIX ≤ 10) (hd : ∀ i, s.g_data i ≤ 4095) (hi : s.g_input_buffer ≤ 4095) :
    tickDelayOutput cfg s ≤ 4095 ∧ tickMixOutput cfg s ≤ 4095 ∧
    (tick cfg s).ssi = s.ssi ++ [0x4000 + tickMixOutput cfg s] := by
  have hdata := tickData_le s 4095 hd hi
  have hecho : tickDelayOutput cfg s ≤ 4095 := by
    unfold tickDelayOutput
    rw [hD, GetDelayOutput_default_three]
    have h1 := hdata (s.g_block_address 1)
    have h2 := hdata (s.g_block_address 2)
    have h3 : tickData s (s.g_block_address 1) * 1 / 3 ≤ 1365 := by omega
    have h4 : tickData s (s.g_block_address 2) * 2 / 3 ≤ 2730 := by omega
    exact Nat.le_trans (Nat.mod_le _ _) (by omega)
  have hmix : tickMixOutput cfg s ≤ 4095 := by
    unfold tickMixOutput
    have hlive := hdata (s.g_block_address 0)
    rw [GetMixOutput_eq _ _ _ (by omega) (by omega) _ hM]
    have h1 : cfg.MIX * tickData s (s.g_block_address 0) ≤ cfg.MIX * 4095 :=
      Nat.mul_le_mul_left _ hlive
    have h2 : (10 - cfg.MIX) * tickDelayOutput cfg s ≤ (10 - cfg.MIX) * 4095 :=
      Nat.mul_le_mul_left _ hecho
    omega
  refine ⟨hecho, hmix, ?_⟩
  show s.ssi ++ [SendSampleToDAC (tickMixOutput cfg s)] = _
  rw [SendSampleToDAC_eq _ hmix]

/-- The saturated state of the reference configuration, for claim C8. -/
theorem tick_output_twelve_bits_witness :
    (reference.DECAY = 3 ∧ reference.MIX ≤ 10 ∧ (∀ i, saturated.g_data i ≤ 4095) ∧
      saturated.g_input_buffer ≤ 4095) ∧
    tickDelayOutput reference saturated ≤ 4095 ∧ tickMixOutput reference saturated ≤ 4095 ∧
    (tick reference saturated).ssi
      = saturated.ssi ++ [0x4000 + tickMixOutput reference saturated] :=
  ⟨⟨rfl, by decide, fun _ => Nat.le_refl _, Nat.le_refl _⟩,
   tick_output_twelve_bits reference saturated rfl (by decide) (fun _ => Nat.le_refl _)
     (Nat.le_refl _)⟩

/-- Claim C10, as the code has it. In the reference configuration (`DECAY = 3`, tap spacing
`400`, top address `1199`, `MIX = 4`) with a zero-initialised buffer and the input `1000`
at tick `0`, `0` afterwards: after exactly 801 ticks the tap at index 1 reads the value
`1000` and contributes `1000 * 1 / 3 = 333` to the echo sum, the tap at index 2 reads `0`,
and the blended output of that tick is `(4 * 0) / 10 + (6 * 333) / 10 = 199`. -/
theorem step_scenario_801 :
    reference.DECAY = 3 ∧ block_space reference = 400 ∧ top_mem_address reference = 1199 ∧
    reference.MIX = 4 ∧
    tickData (tickState reference stepInput 801)
      ((tickState reference stepInput 801).g_block_address 1) = 1000 ∧
    tickData (tickState reference stepInput 801)
      ((tickState reference stepInput 801).g_block_address 2) = 0 ∧
    1000 * 1 / 3 = 333 ∧
    tickDelayOutput reference (tickState reference stepInput 801) = 333 ∧
    tickMixOutput reference (tickState reference stepInput 801) = 199 ∧
    (4 * 0) / 10 + (6 * 333) / 10 = 199 := by
  obtain ⟨h1, h2, h3, h4⟩ := step_scenario_tick 801 (by decide) (by decide)
  exact ⟨rfl, by decide, by decide, rfl, h1, h2, by decide, h3, h4, by decide⟩

/-- Claim C10 fails: after exactly 400 ticks (and likewise after 399) the tap at index 1
reads `0`, not `1000`, the echo sum is `0` and the blended output is `0`, not `199`; the
first echo of the step appears one tick later, at tick 401, through the tap at index 2
(weight `2/3`: echo `666`, output `399`). -/
theorem step_scenario_400 :
    tickData (tickState reference stepInput 400)
      ((tickState reference stepInput 400).g_block_address 1) = 0 ∧
    tickDelayOutput reference (tickState reference stepInput 400) = 0 ∧
    tickMixOutput reference (tickState reference stepInput 400) = 0 ∧
    tickData (tickState reference stepInput 399)
      ((tickState reference stepInput 399).g_block_address 1) = 0 ∧
    tickDelayOutput reference (tickState reference stepInput 399) = 0 ∧
    tickMixOutput reference (tickState reference stepInput 399) = 0 ∧
    tickData (tickState reference stepInput 401)
      ((tickState reference stepInput 401).g_block_address 2) = 1000 ∧
    tickDelayOutput reference (tickState reference stepInput 401) = 666 ∧
    tickMixOutput reference (tickState reference stepInput 401) = 399 := by
  obtain ⟨a1, _, a3, a4⟩ := step_scenario_tick 400 (by decide) (by decide)
  obtain ⟨b1, _, b3, b4⟩ := step_scenario_tick 399 (by decide) (by decide)
  obtain ⟨_, c2, c3, c4⟩ := step_scenario_tick 401 (by decide) (by decide)
  exact ⟨a1, a3, a4, b1, b3, b4, c2, c3, c4⟩

/-- Claim C12. If the ADC handler stores two samples `a` then `b` with no tick in between,
the state is the one the single acquisition of `b` leaves (`a` is not observable), the
next tick writes the sample derived from `b` into the buffer, and the two acquisitions
are followed by exactly one tick: the loop iteration after it finds the flag cleared,
changes nothing, and one word in all has been dispatched. -/
theorem lossy_handoff (cfg : Config) (s : State) (a b : Nat) :
    ADC0IntHandler b (ADC0IntHandler a s) = ADC0IntHandler b s ∧
    (mainLoop cfg (ADC0IntHandler b (ADC0IntHandler a s))).g_data (s.g_block_address 0)
      = Convert32to16 b ∧
    mainLoop cfg (mainLoop cfg (ADC0IntHandler b (ADC0IntHandler a s)))
      = mainLoop cfg (ADC0IntHandler b (ADC0IntHandler a s)) ∧
    (mainLoop cfg (mainLoop cfg (ADC0IntHandler b (ADC0IntHandler a s)))).ssi.length
      = s.ssi.length + 1 := by
  have h1 : ADC0IntHandler b (ADC0IntHandler a s) = ADC0IntHandler b s := rfl
  have h2 : mainLoop cfg (ADC0IntHandler b s) = tick cfg (ADC0IntHandler b s) :=
    mainLoop_ready cfg _ rfl
  have h3 : mainLoop cfg (tick cfg (ADC0IntHandler b s)) = tick cfg (ADC0IntHandler b s) :=
    mainLoop_idle cfg _ (by show (0 : Nat) ≠ 1; decide)
  rw [h1, h2, h3]
  refine ⟨rfl, ?_, rfl, ?_⟩
  · show store s.g_data (s.g_block_address 0) (Convert32to16 b) (s.g_block_address 0) = _
    rw [store_same]
  · show (s.ssi ++ [_]).length = _
    rw [List.length_append, List.length_singleton]

/-- Claim C13. In a state with the ready flag set, one loop iteration dispatches the word
`0x4000 | blend`, where the blend is `GetMixOutput` of the live value, which is the sample
acquired for this tick, written in this same tick, and of the echo computed from the tap
positions as they are before the advance (for `MIX` in `[0, 10]` the blend is
`MIX * sample / 10 + (10 - MIX) * echo / 10`); the iteration ends with every tap position
advanced by one, cyclically. -/
theorem tick_dispatch (cfg : Config) (s : State) (hflag : s.g_sample_complete = 1) :
    tickData s (s.g_block_address 0) = Convert32to16 s.g_input_buffer ∧
    (mainLoop cfg s).ssi = s.ssi ++
      [0x4000 ||| GetMixOutput cfg.MIX (tickData s) s.g_block_address
        (GetDelayOutput cfg.DECAY (tickData s) s.g_block_address)] ∧
    (cfg.MIX ≤ 10 →
      GetMixOutput cfg.MIX (tickData s) s.g_block_address
          (GetDelayOutput cfg.DECAY (tickData s) s.g_block_address)
        = cfg.MIX * Convert32to16 s.g_input_buffer / 10
          + (10 - cfg.MIX) * GetDelayOutput cfg.DECAY (tickData s) s.g_block_address / 10) ∧
    (∀ n, n < cfg.DECAY → (mainLoop cfg s).g_block_address n
      = if (s.g_block_address n + 1) % 65536 > top_mem_address cfg then 0
        else (s.g_block_address n + 1) % 65536) ∧
    (0 < cfg.DECAY * block_space cfg → cfg.DECAY * block_space cfg ≤ 65536 →
      ∀ n, n < cfg.DECAY → s.g_block_address n < cfg.DECAY * block_space cfg →
        (mainLoop cfg s).g_block_address n
          = (s.g_block_address n + 1) % (cfg.DECAY * block_space cfg)) := by
  have hlive : tickData s (s.g_block_address 0) = Convert32to16 s.g_input_buffer := by
    unfold tickData; rw [store_same]
  have hadv : ∀ n, n < cfg.DECAY → (mainLoop cfg s).g_block_address n
      = incAddress (top_mem_address cfg) (s.g_block_address n) := by
    intro n hn
    rw [mainLoop_ready cfg s hflag]
    show IncBlockAddress cfg.DECAY (top_mem_address cfg) s.g_block_address n = _
    rw [IncBlockAddress_apply, if_pos hn]
  refine ⟨hlive, ?_, ?_, fun n hn => hadv n hn, ?_⟩
  · rw [mainLoop_ready cfg s hflag]
    show s.ssi ++ [SendSampleToDAC (GetMixOutput cfg.MIX (tickData s) s.g_block_address
      (GetDelayOutput cfg.DECAY (tickData s) s.g_block_address))] = _
    rw [SendSampleToDAC_or _ (GetMixOutput_lt _ _ _ _), Nat.or_comm]
  · intro hM
    have hl : tickData s (s.g_block_address 0) < 65536 := by
      rw [hlive, Convert32to16_eq]; exact Nat.mod_lt _ (by decide)
    rw [GetMixOutput_eq _ _ _ hl (GetDelayOutput_lt _ _ _) _ hM, hlive]
  · intro h0 h1 n hn hlt
    rw [hadv n hn, top_mem_address_eq cfg h0 h1, incAddress_eq _ _ h0 h1 hlt]

/-- The saturated state of the reference configuration, for claim C13. -/
theorem tick_dispatch_witness :
    saturated.g_sample_complete = 1 ∧
    (mainLoop reference saturated).ssi = saturated.ssi ++
      [0x4000 ||| GetMixOutput reference.MIX (tickData saturated) saturated.g_block_address
        (GetDelayOutput reference.DECAY (tickData saturated) saturated.g_block_address)] :=
  ⟨rfl, (tick_dispatch reference saturated rfl).2.1⟩

/-- Claim C16. A tick writes exactly one buffer slot: after it the slot at the pre-advance
live position holds the sample of the tick, and every other slot of `g_data` is
unchanged. -/
theorem tick_writes_one_slot (cfg : Config) (s : State) :
    (tick cfg s).g_data (s.g_block_address 0) = Convert32to16 s.g_input_buffer ∧
    ∀ i, i ≠ s.g_block_address 0 → (tick cfg s).g_data i = s.g_data i := by
  constructor
  · show store s.g_data _ _ _ = _
    rw [store_same]
  · intro i hi
    show store s.g_data _ _ i = _
    rw [store_other _ _ _ _ hi]

/-- The saturated state of the reference configuration, for claim C16: slot `7` is not the
live slot `0`. -/
theorem tick_writes_one_slot_witness :
    7 ≠ saturated.g_block_address 0 ∧
    (tick reference saturated).g_data 7 = saturated.g_data 7 :=
  ⟨by rw [show saturated.g_block_address 0 = 0 from initState_live reference]; decide,
   (tick_writes_one_slot reference saturated).2 7
     (by rw [show saturated.g_block_address 0 = 0 from initState_live reference]; decide)⟩

/-- Claim C17. A loop iteration in which the ready flag is not set leaves the whole state
unchanged (buffer, tap set, flag, and nothing dispatched); an iteration in which the flag
is set dispatches exactly one word and ends with the flag cleared. -/
theorem mainLoop_idle_processing (cfg : Config) (s : State) :
    (s.g_sample_complete ≠ 1 → mainLoop cfg s = s) ∧
    (s.g_sample_complete = 1 →
      (mainLoop cfg s).ssi = s.ssi ++ [SendSampleToDAC (tickMixOutput cfg s)] ∧
      (mainLoop cfg s).ssi.length = s.ssi.length + 1 ∧
      (mainLoop cfg s).g_sample_complete = 0) := by
  refine ⟨mainLoop_idle cfg s, fun h => ?_⟩
  rw [mainLoop_ready cfg s h]
  refine ⟨rfl, ?_, rfl⟩
  show (s.ssi ++ [_]).length = _
  rw [List.length_append, List.length_singleton]

/-- The start state (flag clear) and the saturated state (flag set) of the reference
configuration, for claim C17. -/
theorem mainLoop_idle_processing_witness :
    ((initState reference).g_sample_complete ≠ 1 ∧
      mainLoop reference (initState reference) = initState reference) ∧
    (saturated.g_sample_complete = 1 ∧
      (mainLoop reference saturated).ssi.length = saturated.ssi.length + 1 ∧
      (mainLoop reference saturated).g_sample_complete = 0) :=
  ⟨⟨by decide, (mainLoop_idle_processing reference (initState reference)).1 (by decide)⟩,
   ⟨rfl, ((mainLoop_idle_processing reference saturated).2 rfl).2⟩⟩

/-- Claim C14, as the code has it. In a configuration with `block_space ≥ 2` and
`C = DECAY * block_space ≤ 65536`, for echo tap indices `m < n` and a tick `t` at which
both taps read written samples: tap `m` reads the sample of tick
`t - ((DECAY - m) * block_space + 1)`, tap `n` the sample of the later tick
`t - ((DECAY - n) * block_space + 1)`; the higher tap index has the shorter delay, and
with weight `n / DECAY` the more recent echo receives the larger weight. -/
theorem higher_tap_more_recent (cfg : Config) (x : Nat → Nat) (hB : 2 ≤ block_space cfg)
    (hC : cfg.DECAY * block_space cfg ≤ 65536) (t m n : Nat) (hm1 : 1 ≤ m) (hmn : m < n)
    (hn : n < cfg.DECAY) (ht : (cfg.DECAY - m) * block_space cfg + 1 ≤ t) :
    tickData (tickState cfg x t) ((tickState cfg x t).g_block_address m)
      = Convert32to16 (x (t - ((cfg.DECAY - m) * block_space cfg + 1))) ∧
    tickData (tickState cfg x t) ((tickState cfg x t).g_block_address n)
      = Convert32to16 (x (t - ((cfg.DECAY - n) * block_space cfg + 1))) ∧
    t - ((cfg.DECAY - m) * block_space cfg + 1) < t - ((cfg.DECAY - n) * block_space cfg + 1) ∧
    ∀ v, v * m / cfg.DECAY ≤ v * n / cfg.DECAY := by
  have hlt := delay_lt_of_lt cfg.DECAY (block_space cfg) m n (by omega) hmn hn
  have rm := tap_reads cfg x hB hC t m hm1 (by omega)
  have rn := tap_reads cfg x hB hC t n (by omega) hn
  rw [if_pos ht] at rm
  rw [if_pos (by omega)] at rn
  refine ⟨rm, rn, by omega, fun v => ?_⟩
  exact Nat.div_le_div_right (Nat.mul_le_mul_left _ (by omega))

/-- Taps 1 and 2 of the reference configuration at tick 1000, for claim C14. -/
theorem higher_tap_more_recent_witness :
    (2 ≤ block_space reference ∧ reference.DECAY * block_space reference ≤ 65536 ∧
      1 ≤ 1 ∧ 1 < 2 ∧ 2 < reference.DECAY ∧
      (reference.DECAY - 1) * block_space reference + 1 ≤ 1000) ∧
    tickData (tickState reference tickNumber 1000)
        ((tickState reference tickNumber 1000).g_block_address 1)
      = Convert32to16 (tickNumber (1000 - ((reference.DECAY - 1) * block_space reference + 1))) ∧
    tickData (tickState reference tickNumber 1000)
        ((tickState reference tickNumber 1000).g_block_address 2)
      = Convert32to16 (tickNumber (1000 - ((reference.DECAY - 2) * block_space reference + 1))) ∧
    1000 - ((reference.DECAY - 1) * block_space reference + 1)
      < 1000 - ((reference.DECAY - 2) * block_space reference + 1) ∧
    ∀ v, v * 1 / reference.DECAY ≤ v * 2 / reference.DECAY :=
  ⟨by decide,
   higher_tap_more_recent reference tickNumber (by decide) (by decide) 1000 1 2
     (by decide) (by decide) (by decide) (by decide)⟩

/-- Claim C14 fails: in the reference configuration on the tick-numbering input, at tick
1000 tap 1 reads the sample of tick 199 and tap 2 the sample of tick 599; the tap with the
lower index reads the older sample. -/
theorem lower_tap_reads_older :
    tickData (tickState reference tickNumber 1000)
      ((tickState reference tickNumber 1000).g_block_address 1) = 199 ∧
    tickData (tickState reference tickNumber 1000)
      ((tickState reference tickNumber 1000).g_block_address 2) = 599 ∧
    tickNumber 199 = 199 ∧ tickNumber 599 = 599 ∧ (199 : Nat) < 599 := by
  have r1 := tap_reads reference tickNumber (by decide) (by decide) 1000 1 (by decide)
    (by decide)
  have r2 := tap_reads reference tickNumber (by decide) (by decide) 1000 2 (by decide)
    (by decide)
  rw [r1, r2]
  refine ⟨?_, ?_, rfl, rfl, by decide⟩ <;>
  · rw [Convert32to16_eq]
    decide

/-- Claim C20, as the code has it. In the reference configuration (`DECAY = 3`,
`block_space = 400`, top address `1199`), in every reachable state every index a tick uses
is inside its storage: each tap index is below the 6 slots of `g_block_address` and each
tap position below the 16000 slots of `g_data`; more generally this holds whenever
`DECAY ≤ 6` and `1 ≤ DECAY * block_space ≤ 16000`. -/
theorem storage_bounds :
    (reference.DECAY = 3 ∧ block_space reference = 400 ∧ top_mem_address reference = 1199) ∧
    (∀ es : List Event, tickInBounds reference (exec reference es)) ∧
    (∀ (cfg : Config) (es : List Event), cfg.DECAY ≤ 6 → 0 < cfg.DECAY * block_space cfg →
      cfg.DECAY * block_space cfg ≤ 16000 → tickInBounds cfg (exec cfg es)) :=
  ⟨⟨rfl, by decide, by decide⟩,
   fun es => exec_tickInBounds reference es (by decide) (by decide) (by decide),
   fun cfg es hD h0 h1 => exec_tickInBounds cfg es hD h0 h1⟩

/-- The reference configuration after two sample periods, for claim C20. -/
theorem storage_bounds_witness :
    (reference.DECAY ≤ 6 ∧ 0 < reference.DECAY * block_space reference ∧
      reference.DECAY * block_space reference ≤ 16000) ∧
    tickInBounds reference (exec reference [.adc 1000, .loop, .adc 0, .loop]) :=
  ⟨by decide,
   storage_bounds.2.2 reference [.adc 1000, .loop, .adc 0, .loop] (by decide) (by decide)
     (by decide)⟩

/-- Claim C20 fails for a delay of 0 ms: `zeroDelay` has `DECAY = 3 ≤ 6` and
`DECAY * block_space = 0 ≤ 16000`, but `InitBlockAddress(0)` leaves the echo taps at
position `65535`, which the first tick reads, beyond the 16000 slots of `g_data`. -/
theorem storage_bounds_zero_delay :
    zeroDelay.DECAY ≤ 6 ∧ zeroDelay.DECAY * block_space zeroDelay ≤ 16000 ∧
    (exec zeroDelay []).g_block_address 1 = 65535 ∧
    (exec zeroDelay []).g_block_address 1 ∈ tickDataIndices zeroDelay (exec zeroDelay []) ∧
    ¬ tickInBounds zeroDelay (exec zeroDelay []) := by
  have ha : (exec zeroDelay []).g_block_address 1 = 65535 := by
    show (initState zeroDelay).g_block_address 1 = 65535
    rw [initState_g_block_address, InitBlockAddress_apply]
    decide
  have hmem : (exec zeroDelay []).g_block_address 1
      ∈ tickDataIndices zeroDelay (exec zeroDelay []) := by
    simp only [tickDataIndices, List.mem_append, List.mem_singleton, List.mem_map,
      List.mem_range'_1]
    exact Or.inl (Or.inr ⟨1, by decide, rfl⟩)
  refine ⟨by decide, by decide, ha, hmem, fun h => ?_⟩
  have hlt := h.2 _ hmem
  rw [ha] at hlt
  exact absurd hlt (by decide)

/-- Claim C2, on the declared storage. Whenever the array accesses of `GetDelayOutput` are
inside the declared arrays (which needs `DECAY ≤ 6`) and the slots of `g_data` hold 12-bit
samples, the result is `floor(m * S)` with `m` exactly the decimal multiplier of the table
for `DECAY` in `4 .. 6`, and `S` unscaled for `DECAY < 4`, where `S = echoSum`. For
`DECAY` in `7 .. 10`, the other entries of the table, and for every larger `DECAY` the loop
reads `g_block_address[6]`, outside the 6 declared slots, and the C program defines no
result. -/
theorem GetDelayOutput_table_in_storage :
    (∀ (DECAY : Nat) (g_data g_block_address : Nat → Nat),
      (∀ i, i < g_data_len → g_data i ≤ 4095) → delayInBounds DECAY g_block_address →
      (4 ≤ DECAY → GetDelayOutputChecked DECAY g_data g_block_address
        = some ((decimalMultiplier DECAY).1 * echoSum DECAY g_data g_block_address
            / (decimalMultiplier DECAY).2)) ∧
      (DECAY < 4 → GetDelayOutputChecked DECAY g_data g_block_address
        = some (echoSum DECAY g_data g_block_address))) ∧
    (∀ (DECAY : Nat) (g_data g_block_address : Nat → Nat), 7 ≤ DECAY →
      GetDelayOutputChecked DECAY g_data g_block_address = none) := by
  constructor
  · intro DECAY g a h12 hb
    have hD : DECAY ≤ 6 := ((delayInBounds_iff DECAY a).1 hb).1
    have hsum := echoSum_bound_taps DECAY g a (tap_samples_le DECAY g a h12 hb)
    have hS : echoSum DECAY g a < 65536 := by
      have : 4095 * (DECAY - 1) ≤ 4095 * 5 := Nat.mul_le_mul_left _ (by omega)
      omega
    obtain ⟨htab, hdef⟩ := GetDelayOutput_of_echoSum DECAY g a hS
    unfold GetDelayOutputChecked
    rw [if_pos hb]
    exact ⟨fun h4 => by rw [htab h4 (by omega)], fun h3 => by rw [hdef h3]⟩
  · intro DECAY g a h7
    unfold GetDelayOutputChecked
    rw [if_neg (not_delayInBounds DECAY a h7)]

/-- Four taps on a saturated buffer (echo sum `6141`, result `3684`), and seven taps, for
claim C2. -/
theorem GetDelayOutput_table_in_storage_witness :
    ((∀ i, i < g_data_len → (fun _ : Nat => 4095) i ≤ 4095) ∧
      delayInBounds 4 (fun n => n) ∧ 4 ≤ 4) ∧
    GetDelayOutputChecked 4 (fun _ => 4095) (fun n => n)
      = some ((decimalMultiplier 4).1 * echoSum 4 (fun _ => 4095) (fun n => n)
          / (decimalMultiplier 4).2) ∧
    GetDelayOutputChecked 7 (fun _ => 4095) (fun n => n) = none :=
  ⟨⟨fun _ _ => Nat.le_refl _, by decide, by decide⟩,
   (GetDelayOutput_table_in_storage.1 4 (fun _ => 4095) (fun n => n)
     (fun _ _ => Nat.le_refl _) (by decide)).1 (by decide),
   GetDelayOutput_table_in_storage.2 7 (fun _ => 4095) (fun n => n) (by decide)⟩

/-- Claim C18, on the declared storage. Whenever the array accesses of `GetDelayOutput`
are inside the declared arrays (which needs `DECAY ≤ 6`) and the slots of `g_data` hold
samples of at most `4095`, no step of the accumulation overflows 16 bits: every product
`s_n * n` and every partial sum is below `65536`, the 16-bit running sum after any number
of steps is the unbounded partial sum, and the final running sum is the unbounded sum of
`floor(s_n * n / DECAY)`. For `DECAY` in `7 .. 10` (and above) the loop reads
`g_block_address[6]`, outside the 6 declared slots, and what it accumulates is not
defined by the C program. -/
theorem delaySum_in_storage :
    (∀ (DECAY : Nat) (g_data g_block_address : Nat → Nat),
      (∀ i, i < g_data_len → g_data i ≤ 4095) → delayInBounds DECAY g_block_address →
      (∀ n, 1 ≤ n → n < DECAY → g_data (g_block_address n) * n < 65536) ∧
      (∀ j, j ≤ DECAY - 1 →
        ((List.range' 1 j).map fun n => g_data (g_block_address n) * n / DECAY).sum < 65536 ∧
        (List.range' 1 j).foldl
            (fun output n => (output + (g_data (g_block_address n) * n) / DECAY) % 65536) 0
          = ((List.range' 1 j).map fun n => g_data (g_block_address n) * n / DECAY).sum) ∧
      delaySum DECAY g_data g_block_address = echoSum DECAY g_data g_block_address) ∧
    (∀ (DECAY : Nat) (g_block_address : Nat → Nat), 7 ≤ DECAY →
      ¬ delayInBounds DECAY g_block_address) := by
  refine ⟨?_, fun DECAY a h7 => not_delayInBounds DECAY a h7⟩
  intro DECAY g a h12 hb
  have hD : DECAY ≤ 6 := ((delayInBounds_iff DECAY a).1 hb).1
  have hs := tap_samples_le DECAY g a h12 hb
  have hpart : ∀ j, j ≤ DECAY - 1 →
      ((List.range' 1 j).map fun n => g (a n) * n / DECAY).sum < 65536 := by
    intro j hj
    rcases Nat.eq_zero_or_pos DECAY with h0 | hpos
    · have hj0 : j = 0 := by omega
      subst hj0
      simp
    · have hle : ((List.range' 1 j).map fun n => g (a n) * n / DECAY).sum ≤ 4095 * j :=
        partial_sum_le_taps DECAY (fun n => g (a n)) hs j (by omega)
      omega
  refine ⟨?_, fun j hj => ⟨hpart j hj, ?_⟩, ?_⟩
  · intro n hn1 hn
    have h1 : g (a n) * n ≤ 4095 * 5 := Nat.mul_le_mul (hs n hn1 hn) (by omega)
    omega
  · exact foldl_add_mod_exact (fun n => g (a n) * n / DECAY) _ (hpart j hj)
  · rw [delaySum_eq]
    exact Nat.mod_eq_of_lt (hpart (DECAY - 1) (Nat.le_refl _))

/-- Six taps on a saturated buffer, and ten taps, for claim C18. -/
theorem delaySum_in_storage_witness :
    ((∀ i, i < g_data_len → (fun _ : Nat => 4095) i ≤ 4095) ∧ delayInBounds 6 (fun n => n)) ∧
    delaySum 6 (fun _ => 4095) (fun n => n) = echoSum 6 (fun _ => 4095) (fun n => n) ∧
    ¬ delayInBounds 10 (fun n => n) :=
  ⟨⟨fun _ _ => Nat.le_refl _, by decide⟩,
   (delaySum_in_storage.1 6 (fun _ => 4095) (fun n => n) (fun _ _ => Nat.le_refl _)
     (by decide)).2.2,
   delaySum_in_storage.2 10 (fun n => n) (by decide)⟩

/-- Claim C11, on the declared storage. For `DECAY` in `4 .. 6` and `MIX` in `[0, 10]`: in
a tick whose array accesses are inside the declared arrays, with every slot of `g_data`
and the new sample at `4095`, the echo sum before normalization is the sum over
`n = 1 .. DECAY - 1` of `floor(4095 * n / DECAY)`, and the echo after the normalization
of the table and the blended output are at most `4095`; a run with `1 ≤ C ≤ 16000` is in
this situation in every tick once at least `C` ticks have passed of which the last `C`,
and the tick itself, had the input `4095`. For `DECAY` in `7 .. 10` (and above) every
tick accesses `g_block_address[6]`, outside the 6 declared slots, and the C program
defines no output. -/
theorem saturation_in_storage :
    (∀ (cfg : Config) (s : State), 4 ≤ cfg.DECAY → cfg.MIX ≤ 10 → tickInBounds cfg s →
      (∀ i, i < g_data_len → s.g_data i = 4095) → s.g_input_buffer = 4095 →
      delaySum cfg.DECAY (tickData s) s.g_block_address = saturatedSum cfg.DECAY ∧
      tickDelayOutput cfg s ≤ 4095 ∧ tickMixOutput cfg s ≤ 4095) ∧
    (∀ (cfg : Config) (x : Nat → Nat) (t : Nat), 4 ≤ cfg.DECAY → cfg.DECAY ≤ 6 →
      cfg.MIX ≤ 10 → 0 < cfg.DECAY * block_space cfg →
      cfg.DECAY * block_space cfg ≤ 16000 → cfg.DECAY * block_space cfg ≤ t →
      (∀ t', t' ≤ t → t < t' + cfg.DECAY * block_space cfg → x t' = 4095) →
      tickInBounds cfg (tickState cfg x t) ∧
      delaySum cfg.DECAY (tickData (tickState cfg x t)) (tickState cfg x t).g_block_address
        = saturatedSum cfg.DECAY ∧
      tickDelayOutput cfg (tickState cfg x t) ≤ 4095 ∧
      tickMixOutput cfg (tickState cfg x t) ≤ 4095) ∧
    (∀ (cfg : Config) (s : State), 7 ≤ cfg.DECAY →
      ¬ tickInBounds cfg s ∧ tickChecked cfg s = none) := by
  refine ⟨?_, ?_, ?_⟩
  · intro cfg s h4 hM hb hd hi
    have h6 := (tickInBounds_taps cfg s hb).1
    exact saturated_tick cfg s h4 (by omega) hM (saturated_taps cfg s hb hd hi)
  · intro cfg x t h4 h6 hM h0 h1 ht hx
    exact ⟨tickState_tickInBounds cfg x t h6 h0 h1,
      saturated_tick cfg _ h4 (by omega) hM (saturated_run cfg x h0 (by omega) t ht hx)⟩
  · intro cfg s h7
    have hnb := not_tickInBounds cfg s h7
    refine ⟨hnb, ?_⟩
    unfold tickChecked
    rw [if_neg hnb]

/-- The saturated state with four taps (echo sum `6141`) and with seven taps, for claim
C11. -/
theorem saturation_in_storage_witness :
    (4 ≤ fourTaps.DECAY ∧ fourTaps.MIX ≤ 10 ∧ tickInBounds fourTaps saturated ∧
      (∀ i, i < g_data_len → saturated.g_data i = 4095) ∧ saturated.g_input_buffer = 4095) ∧
    saturatedSum fourTaps.DECAY = 6141 ∧
    (delaySum fourTaps.DECAY (tickData saturated) saturated.g_block_address
        = saturatedSum fourTaps.DECAY ∧
      tickDelayOutput fourTaps saturated ≤ 4095 ∧ tickMixOutput fourTaps saturated ≤ 4095) ∧
    (7 ≤ sevenTaps.DECAY ∧ tickChecked sevenTaps saturated = none) :=
  have hb : tickInBounds fourTaps saturated := by
    have e : saturated.g_block_address
        = InitBlockAddress 3 (400 % 65536) (fun _ => 0) := rfl
    constructor
    · intro n hn
      simp only [tickTapIndices, fourTaps, List.mem_append, List.mem_singleton,
        List.mem_range'_1, List.mem_range] at hn
      show n < 6
      omega
    · intro p hp
      simp only [tickDataIndices, fourTaps, List.mem_append, List.mem_singleton, List.mem_map,
        List.mem_range'_1] at hp
      show p < 16000
      rcases hp with (hp | ⟨n, hn, rfl⟩) | hp
      · rw [hp, e, InitBlockAddress_apply]; decide
      · rw [e, InitBlockAddress_apply]
        have hn' : n = 1 ∨ n = 2 ∨ n = 3 := by omega
        rcases hn' with rfl | rfl | rfl <;> decide
      · rw [hp, e, InitBlockAddress_apply]; decide
  ⟨⟨by decide, by decide, hb, fun _ _ => rfl, rfl⟩, by decide,
   saturation_in_storage.1 fourTaps saturated (by decide) (by decide) hb (fun _ _ => rfl) rfl,
   by decide, (saturation_in_storage.2.2 sevenTaps saturated (by decide)).2⟩

/-- Claim C15. For every configuration the declared storage admits (`DECAY ≤ 6` taps and a
capacity `C = DECAY * block_space ≤ 16000`) with `block_space ≥ 2` and `DECAY ≥ 2`, in
every state the program reaches from `InitBlockAddress`: every array access of a tick is
inside the declared arrays, no echo tap position equals the live position, the tap
positions are pairwise distinct, and what an echo tap reads in a tick is the slot as it
was before the tick, never the sample written in that tick. -/
theorem taps_never_alias (cfg : Config) (hB : 2 ≤ block_space cfg) (hD : 2 ≤ cfg.DECAY)
    (hD6 : cfg.DECAY ≤ g_block_address_len) (hC : cfg.DECAY * block_space cfg ≤ g_data_len)
    (es : List Event) :
    tickInBounds cfg (exec cfg es) ∧
    (∀ n, 1 ≤ n → n < cfg.DECAY →
      (exec cfg es).g_block_address n ≠ (exec cfg es).g_block_address 0) ∧
    (∀ m n, m < cfg.DECAY → n < cfg.DECAY → m ≠ n →
      (exec cfg es).g_block_address m ≠ (exec cfg es).g_block_address n) ∧
    (∀ n, 1 ≤ n → n < cfg.DECAY →
      tickData (exec cfg es) ((exec cfg es).g_block_address n)
        = (exec cfg es).g_data ((exec cfg es).g_block_address n)) := by
  have h0 : 0 < cfg.DECAY * block_space cfg := Nat.mul_pos (by omega) (by omega)
  have hC' : cfg.DECAY * block_space cfg ≤ 16000 := hC
  have hinj := exec_taps_injective cfg hB h0 (by omega) es
  have hlive : ∀ n, 1 ≤ n → n < cfg.DECAY →
      (exec cfg es).g_block_address n ≠ (exec cfg es).g_block_address 0 := by
    intro n hn1 hn h
    have := hinj n 0 hn (by omega) h
    omega
  refine ⟨exec_tickInBounds cfg es hD6 h0 hC', hlive,
    fun m n hm hn hne h => hne (hinj m n hm hn h), fun n hn1 hn => ?_⟩
  unfold tickData
  rw [store_other _ _ _ _ (hlive n hn1 hn)]

/-- The reference configuration after two sample periods, for claim C15. -/
theorem taps_never_alias_witness :
    (2 ≤ block_space reference ∧ 2 ≤ reference.DECAY ∧
      reference.DECAY ≤ g_block_address_len ∧
      reference.DECAY * block_space reference ≤ g_data_len ∧ 1 ≤ 1 ∧ 1 < reference.DECAY) ∧
    (exec reference [.adc 1000, .loop, .adc 0, .loop]).g_block_address 1
      ≠ (exec reference [.adc 1000, .loop, .adc 0, .loop]).g_block_address 0 :=
  ⟨by decide,
   (taps_never_alias reference (by decide) (by decide) (by decide) (by decide)
     [.adc 1000, .loop, .adc 0, .loop]).2.1 1 (by decide) (by decide)⟩

/-- Claim C19. For every configuration the declared storage admits (`DECAY ≤ 6` taps and a
capacity `C = DECAY * block_space ≤ 16000`) with `block_space ≥ 2`, at tick `t` (counted
from `0` after `InitBlockAddress`) every array access is inside the declared arrays and
echo tap `n` (`1 ≤ n < DECAY`) reads the sample written at tick
`t - ((DECAY - n) * block_space + 1)` when that tick exists and the initial `0` otherwise;
and of two echo taps the one with the larger index, hence the larger weight `n / DECAY`,
has the shorter delay, that is, holds the more recent sample. -/
theorem tap_delay (cfg : Config) (x : Nat → Nat) (hB : 2 ≤ block_space cfg)
    (hD6 : cfg.DECAY ≤ g_block_address_len) (hC : cfg.DECAY * block_space cfg ≤ g_data_len)
    (t n : Nat) (hn1 : 1 ≤ n) (hn : n < cfg.DECAY) :
    tickInBounds cfg (tickState cfg x t) ∧
    tickData (tickState cfg x t) ((tickState cfg x t).g_block_address n)
      = (if (cfg.DECAY - n) * block_space cfg + 1 ≤ t
        then Convert32to16 (x (t - ((cfg.DECAY - n) * block_space cfg + 1))) else 0) ∧
    ∀ m, 1 ≤ m → m < n →
      (cfg.DECAY - n) * block_space cfg + 1 < (cfg.DECAY - m) * block_space cfg + 1 := by
  have h0 : 0 < cfg.DECAY * block_space cfg := Nat.mul_pos (by omega) (by omega)
  have hC' : cfg.DECAY * block_space cfg ≤ 16000 := hC
  exact ⟨tickState_tickInBounds cfg x t hD6 h0 hC',
    tap_reads cfg x hB (by omega) t n hn1 hn,
    fun m _ hmn => delay_lt_of_lt _ _ m n (by omega) hmn hn⟩

/-- Tap 2 of the reference configuration at tick 1000 on the tick-numbering input: it
reads the sample of tick `1000 - 401 = 599`. -/
theorem tap_delay_witness :
    (2 ≤ block_space reference ∧ reference.DECAY ≤ g_block_address_len ∧
      reference.DECAY * block_space reference ≤ g_data_len ∧ 1 ≤ 2 ∧ 2 < reference.DECAY) ∧
    tickData (tickState reference tickNumber 1000)
        ((tickState reference tickNumber 1000).g_block_address 2)
      = (if (reference.DECAY - 2) * block_space reference + 1 ≤ 1000
        then Convert32to16 (tickNumber (1000 - ((reference.DECAY - 2) * block_space reference + 1)))
        else 0) :=
  ⟨by decide,
   (tap_delay reference tickNumber (by decide) (by decide) (by decide) 1000 2 (by decide)
     (by decide)).2.1⟩

end GuitarDelay
